import Mathlib

/-!
Verification of the RoomAssignmentSolver core against its specification.

The definitions below are a shallow embedding of the Python sources:
  * `logic/utils.py`       — date parsing, interval overlap, serial rooms, field helpers
  * `logic/calendar_store.py` — the per-(room_type, room) interval calendar
  * `logic/validate.py`    — the hard/soft validator
  * `logic/solver.py`      — the exported backtracking solver `assign_rooms`

Dates are represented by the code `(y * 100 + m) * 100 + d`, which is strictly
monotone in the lexicographic order on (year, month, day), the order used by
Python `datetime` / pandas `Timestamp` comparisons for dd/mm/YYYY dates.
Python operations that can raise are modelled with `Except`; operations that
coerce failures (pandas `errors="coerce"`) are modelled with `Option`.
Python's binding of required keyword-only parameters is modelled explicitly
at the one call site under audit that omits one — the relaxation ladder's
`_search_assignments` call — so the resulting `TypeError` is derived from the
callee signature and the call's keyword list rather than assumed.
Wall-clock time is not modelled: the solver's time-budget check is represented
by its node-count half only, which is how the claims under audit phrase it.

String operations (strip, split, int, lower, `<`) are implemented over the
character list of the string, mirroring Python's semantics on the inputs in
scope; Python's stable `sort` is implemented as a stable insertion sort, which
agrees with any stable sort for the total preorders used here.
-/

namespace RoomAssign

/-! ## String primitives over `List Char` -/

/-- Python `str.strip()`: drop leading and trailing whitespace. -/
def trimChars (l : List Char) : List Char :=
  ((l.dropWhile Char.isWhitespace).reverse.dropWhile Char.isWhitespace).reverse

/-- Python `str.strip()` on a string. -/
def trimS (s : String) : String :=
  String.mk (trimChars s.data)

/-- Python `s.split("/")`. -/
def splitSlash : List Char → List (List Char)
  | [] => [[]]
  | c :: rest =>
      let r := splitSlash rest
      if c = '/' then [] :: r
      else
        match r with
        | h :: t => (c :: h) :: t
        | [] => [[c]]

/-- Value of a digit string (`int(...)` on an all-digit string). -/
def digitsVal (l : List Char) : Nat :=
  l.foldl (fun acc c => acc * 10 + (c.toNat - 48)) 0

/-- Nonempty and all decimal digits. -/
def allDigitsL (l : List Char) : Bool :=
  !l.isEmpty && l.all Char.isDigit

/-- Python `str < str`: strict lexicographic comparison by code point. -/
def charListLt : List Char → List Char → Bool
  | [], [] => false
  | [], _ :: _ => true
  | _ :: _, [] => false
  | a :: as, b :: bs =>
      decide (a.toNat < b.toNat) || (a.toNat == b.toNat && charListLt as bs)

/-- Python `a <= b` on strings (used for `sorted`). -/
def strLe (a b : String) : Bool :=
  charListLt a.data b.data || a.data == b.data

/-- Sublist-run search: Python's `needle in hay`. -/
def containsRun [BEq α] (needle : List α) : List α → Bool
  | [] => needle.isEmpty
  | c :: rest => needle.isPrefixOf (c :: rest) || containsRun needle rest

/-- Lower-case an ASCII letter code point (Python `str.lower()` restricted to
the ASCII range, enough for the `field`/`camp`/`pitch` needles; Hebrew has no
case). -/
def lowerCode (n : Nat) : Nat :=
  if 65 ≤ n ∧ n ≤ 90 then n + 32 else n

/-! ## Stable sort (Python `sort` / `sorted`) -/

/-- Insert `a` after every element `b` of an `le`-sorted list with `le b a`:
the insertion step of a stable insertion sort. -/
def insertAfterLe (le : α → α → Bool) (a : α) : List α → List α
  | [] => [a]
  | b :: l => if le b a then b :: insertAfterLe le a l else a :: b :: l

/-- Stable sort by a boolean total preorder: for such comparators the sorted,
stable result is unique, so this equals Python's `list.sort`. -/
def stableSort (le : α → α → Bool) (l : List α) : List α :=
  l.foldl (fun acc a => insertAfterLe le a acc) []

/-! ## Dates: `utils._parse_date` (strptime) and `pd.to_datetime(..., errors="coerce")` -/

/-- Number of days in a month with Gregorian leap years, as validated by Python
`datetime` when `strptime` builds the date. -/
def daysInMonth (y m : Nat) : Nat :=
  if m = 2 then (if y % 4 = 0 ∧ (y % 100 ≠ 0 ∨ y % 400 = 0) then 29 else 28)
  else if m = 4 ∨ m = 6 ∨ m = 9 ∨ m = 11 then 30
  else 31

/-- Encode a (year, month, day) triple as a single natural number whose order
agrees with the lexicographic date order. -/
def dateCode (y m d : Nat) : Nat :=
  (y * 100 + m) * 100 + d

/-- Mirrors `utils._parse_date`: `dt.strptime(str(s).strip(), "%d/%m/%Y")`, returning
`none` where Python raises `ValueError`.  CPython's `%d` / `%m` accept one or two
digits in range, `%Y` exactly four digits, and `datetime` then validates the
day against the month length. -/
def parse_date (s : String) : Option Nat :=
  match splitSlash (trimChars s.data) with
  | [ds, ms, ys] =>
    if allDigitsL ds ∧ ds.length ≤ 2 ∧ allDigitsL ms ∧ ms.length ≤ 2
        ∧ allDigitsL ys ∧ ys.length = 4 then
      let d := digitsVal ds
      let m := digitsVal ms
      let y := digitsVal ys
      if 1 ≤ d ∧ 1 ≤ m ∧ m ≤ 12 ∧ 1 ≤ y ∧ d ≤ daysInMonth y m then
        some (dateCode y m d)
      else none
    else none
  | _ => none

/-- Mirrors `pd.to_datetime(s, format="%d/%m/%Y", errors="coerce")` as used by the
solver: the same dd/mm/YYYY validation, except that dates outside the
nanosecond-`Timestamp` range (22/09/1677 .. 11/04/2262) coerce to `NaT`,
modelled as `none`. -/
def pandas_to_datetime (s : String) : Option Nat :=
  match parse_date s with
  | some c => if 16770922 ≤ c ∧ c ≤ 22620411 then some c else none
  | none => none

/-! ## `utils.py` helpers -/

/-- Mirrors `utils._overlaps`: half-open intervals [start, end),
`not (a_end <= b_start or a_start >= b_end)`. -/
def _overlaps (a_start a_end b_start b_end : Nat) : Bool :=
  !(decide (a_end ≤ b_start) || decide (a_start ≥ b_end))

/-- First maximal run of digit characters in a list, if any
(the first match of the regex `\d+`). -/
def firstDigitRun : List Char → Option (List Char)
  | [] => none
  | c :: rest =>
    if c.isDigit then some (c :: rest.takeWhile Char.isDigit)
    else firstDigitRun rest

/-- Integer value of the first digit run of a string: `re.search(r"\d+", s)`
followed by `int(...)`. -/
def extract_first_number (s : String) : Option Nat :=
  match firstDigitRun s.data with
  | some ds => some (digitsVal ds)
  | none => none

/-- Mirrors `utils.are_serial`: first embedded numbers differ by exactly 1. -/
def are_serial (r1 r2 : String) : Bool :=
  match extract_first_number (trimS r1), extract_first_number (trimS r2) with
  | some n1, some n2 => max n1 n2 - min n1 n2 == 1
  | _, _ => false

/-- Mirrors `solver.is_field_type` (identical to the `utils.py` copy):
the stripped, lowered room type contains שטח / field / camp / pitch. -/
def is_field_type (room_type : String) : Bool :=
  let s := (trimChars room_type.data).map fun c => lowerCode c.toNat
  containsRun ("שטח".data.map Char.toNat) s
    || containsRun ("field".data.map Char.toNat) s
    || containsRun ("camp".data.map Char.toNat) s
    || containsRun ("pitch".data.map Char.toNat) s

/-- Mirrors `solver.extract_room_number` (identical to the `utils.py` copy). -/
def extract_room_number (room : String) : Option Nat :=
  extract_first_number room

/-- Mirrors `field_area_id`: area 1 = rooms 1..5, area 2 = rooms 6..18, else none. -/
def field_area_id : Option Nat → Option Nat
  | none => none
  | some num =>
    if 1 ≤ num ∧ num ≤ 5 then some 1
    else if 6 ≤ num ∧ num ≤ 18 then some 2
    else none

/-- Total preorder used by `utils._room_sort_key`: rooms compare by
(first embedded integer, else +infinity; then the trimmed label). -/
def room_key_le (a b : String) : Bool :=
  let sa := trimS a
  let sb := trimS b
  match extract_first_number sa, extract_first_number sb with
  | some x, some y =>
      decide (x < y) || (decide (x = y) && (charListLt sa.data sb.data || sa.data == sb.data))
  | some _, none => true
  | none, some _ => false
  | none, none => charListLt sa.data sb.data || sa.data == sb.data

/-! ## `calendar_store.py` -/

/-- The module-level `room_calendars`: (room_type, room) to reserved intervals.
A missing key behaves like the empty list, so the `room_calendars[key] = []`
insertions in the source are extensionally no-ops here. -/
def CalState : Type := (String × String) → List (Nat × Nat)

/-- Fresh calendar. -/
def emptyCal : CalState := fun _ => []

/-- Mirrors `calendar_store.is_available`.  `_parse_date` raising `ValueError` on
an unparseable date is modelled as `Except.error`. -/
def is_available (cal : CalState) (room_type room check_in_str check_out_str : String) :
    Except String Bool :=
  match parse_date check_in_str, parse_date check_out_str with
  | some ci, some co =>
      .ok ((cal (trimS room_type, trimS room)).all fun e => !(_overlaps ci co e.1 e.2))
  | _, _ => .error "ValueError: time data does not match format %d/%m/%Y"

/-- Mirrors `calendar_store.reserve`: unconditionally append the interval. -/
def reserve (cal : CalState) (room_type room check_in_str check_out_str : String) :
    Except String CalState :=
  match parse_date check_in_str, parse_date check_out_str with
  | some ci, some co =>
      .ok (fun k => if k = (trimS room_type, trimS room) then cal k ++ [(ci, co)] else cal k)
  | _, _ => .error "ValueError: time data does not match format %d/%m/%Y"

/-! ## Row model for assignment tables -/

/-- A row of the solver's output tables (`assigned_rows` / `unassigned_rows` in
`solver.assign_rooms`); also the row shape consumed by `validate_constraints`
and `rebuild_calendar_from_assignments`. -/
structure OutRow where
  idx : Nat
  id : Nat
  family : String
  room_type : String
  check_in : String
  check_out : String
  forced_room : String
  room : String
deriving DecidableEq, Repr

/-- Mirrors `calendar_store.rebuild_calendar_from_assignments`: clear the global
calendar and replay every row through `reserve` (which raises on an
unparseable stored date). -/
def rebuild_calendar_from_assignments (assigned_df : List OutRow) :
    Except String CalState :=
  assigned_df.foldlM (fun cal r => reserve cal r.room_type r.room r.check_in r.check_out)
    emptyCal

/-! ## `validate.py` -/

/-- The `df["room"] = ...strip()` / `df["room_type"] = ...strip()` normalization
done on the copied frame at the top of `validate_constraints`. -/
def normRows (rows : List OutRow) : List OutRow :=
  rows.map fun r => { r with room := trimS r.room, room_type := trimS r.room_type }

/-- Total preorder on (room_type, room) keys, as `pandas.groupby` sorts them. -/
def pairLe (a b : String × String) : Bool :=
  charListLt a.1.data b.1.data || (a.1.data == b.1.data && strLe a.2 b.2)

/-- The group keys of `df.groupby(["room_type", "room"])`, in sorted order. -/
def hardKeys (df : List OutRow) : List (String × String) :=
  stableSort pairLe ((df.map fun r => (r.room_type, r.room)).dedup)

/-- The rows of one (room_type, room) group, in original row order. -/
def groupRows (df : List OutRow) (k : String × String) : List OutRow :=
  df.filter fun r => r.room_type == k.1 && r.room == k.2

/-- Parse the stored dates of a group in row order; `none` on the first
unparseable date (the `except` branch that forces `hard_ok = False`). -/
def parseGroup : List OutRow → Option (List (Nat × Nat))
  | [] => some []
  | r :: rest =>
      match parse_date r.check_in, parse_date r.check_out with
      | some s, some e => (parseGroup rest).map fun tl => (s, e) :: tl
      | _, _ => none

/-- Lexicographic order on interval endpoint pairs (Python tuple sort). -/
def ivLe (a b : Nat × Nat) : Bool :=
  decide (a.1 < b.1) || (decide (a.1 = b.1) && decide (a.2 ≤ b.2))

/-- The adjacent-pair overlap scan over a (sorted) interval list. -/
def adjOk : List (Nat × Nat) → Bool
  | a :: b :: t => !(_overlaps a.1 a.2 b.1 b.2) && adjOk (b :: t)
  | _ => true

/-- Hard check of one (room_type, room) group: all dates parse, then sort the
intervals and confirm no adjacent pair overlaps. -/
def groupHardOk (grp : List OutRow) : Bool :=
  match parseGroup grp with
  | some ivs => adjOk (stableSort ivLe ivs)
  | none => false

/-- The hard half of `validate_constraints` (early `break`s in the source only
short-circuit this conjunction). -/
def hard_ok_of (df : List OutRow) : Bool :=
  (hardKeys df).all fun k => groupHardOk (groupRows df k)

/-- Sorted family keys of `df.groupby("family")`. -/
def famKeys (df : List OutRow) : List String :=
  stableSort strLe ((df.map fun r => r.family).dedup)

/-- Sorted room_type keys within one family group. -/
def rtKeysOf (famGrp : List OutRow) : List String :=
  stableSort strLe ((famGrp.map fun r => r.room_type).dedup)

/-- Adjacent-pair serial scan over the naturally sorted room labels. -/
def serialChainOk : List String → Bool
  | a :: b :: t => are_serial a b && serialChainOk (b :: t)
  | _ => true

/-- Python `", ".join(rooms)`. -/
def joinComma (l : List String) : String :=
  String.mk (List.intercalate ", ".data (l.map String.data))

/-- The soft half of `validate_constraints`: per family and room_type flag
non-serial multi-room blocks, then per row flag unmet forced rooms. -/
def soft_of (df : List OutRow) : List String :=
  (famKeys df).flatMap fun fam =>
    let famGrp := df.filter fun r => r.family == fam
    let serialMsgs := (rtKeysOf famGrp).flatMap fun rt =>
      let rooms := (famGrp.filter fun r => r.room_type == rt).map fun r => r.room
      if rooms.length > 1 then
        let roomsSorted := stableSort room_key_le rooms
        if serialChainOk roomsSorted then []
        else [fam ++ "/" ++ rt ++ ": rooms not in serial order ("
              ++ joinComma roomsSorted ++ ")."]
      else []
    let forcedMsgs := famGrp.filterMap fun r =>
      let fr := trimS r.forced_room
      if fr ≠ "" ∧ trimS r.room ≠ fr then
        some (fam ++ ": forced " ++ fr ++ " not met (got " ++ r.room ++ ").")
      else none
    serialMsgs ++ forcedMsgs

/-- Mirrors `validate.validate_constraints`: returns (hard_ok, soft_violations). -/
def validate_constraints (assigned_df : List OutRow) : Bool × List String :=
  if assigned_df.isEmpty then (true, [])
  else
    let df := normRows assigned_df
    (hard_ok_of df, soft_of df)

/-- Models the call `validate_constraints(assigned_df)` together with the state of
the caller's table after the call: the source copies the frame
(`df = assigned_df.copy()`) before normalizing it, so the argument comes back
unchanged. -/
def validateCall (assigned_df : List OutRow) : (Bool × List String) × List OutRow :=
  (validate_constraints assigned_df, assigned_df)

/-- The manual-override round trip: `rebuild_calendar_from_assignments(assigned_df)`
followed by `validate_constraints(assigned_df)` on the untouched table.  The
rebuild's possible `ValueError` propagates. -/
def rebuildThenValidate (assigned_df : List OutRow) :
    Except String (Bool × List String) :=
  match rebuild_calendar_from_assignments assigned_df with
  | .ok _ => .ok (validate_constraints assigned_df)
  | .error e => .error e

/-! ## `solver.py`: data classes and field-group machinery -/

/-- Mirrors the `Booking` dataclass. -/
structure Booking where
  idx : Nat
  family : String
  room_type : String
  check_in : String
  check_out : String
  forced_room : Option String
deriving DecidableEq, Repr

/-- Mirrors the `Room` dataclass. -/
structure Room where
  room : String
  room_type : String
deriving DecidableEq, Repr

/-- Mirrors `FIELD_ONE_ROOM_PREF` (size = 1). -/
def FIELD_ONE_ROOM_PREF : List Nat := [8, 12, 17, 1, 18]

/-- Mirrors `FIELD_TWO_ROOMS_PREF` (size = 2). -/
def FIELD_TWO_ROOMS_PREF : List Nat := [16, 18]

/-- Mirrors `FIELD_THREE_ROOMS_PREF` (size = 3). -/
def FIELD_THREE_ROOMS_PREF : List Nat := [12, 13, 14]

/-- Mirrors `FIELD_FIVE_ROOMS_PREF` (size = 5). -/
def FIELD_FIVE_ROOMS_PREF : List Nat := [1, 2, 3, 4, 5]

/-- Mirrors `field_target_set`. -/
def field_target_set (group_size : Nat) : Option (List Nat) :=
  if group_size = 5 then some FIELD_FIVE_ROOMS_PREF
  else if group_size = 3 then some FIELD_THREE_ROOMS_PREF
  else if group_size = 2 then some FIELD_TWO_ROOMS_PREF
  else if group_size = 1 then some FIELD_ONE_ROOM_PREF
  else none

/-- Mirrors `PROHIBITED_SINGLE_ROOMS`. -/
def PROHIBITED_SINGLE_ROOMS : List Nat := [2, 3, 4, 5, 15]

/-- Mirrors `FIELD_CLUSTERS`. -/
def FIELD_CLUSTERS : List (List Nat) := [[2, 3], [9, 10, 11], [10, 11], [13, 14], [16, 18]]

/-- Mirrors `LAST_PRIORITY_ROOM`. -/
def LAST_PRIORITY_ROOM : Nat := 15

/-- Group key of a שטח group: (family, room_type, check_in, check_out). -/
abbrev GKey := String × String × String × String

/-- Group key of a booking. -/
def bkey (b : Booking) : GKey :=
  (b.family, b.room_type, b.check_in, b.check_out)

/-- The per-group metadata dict of `build_field_groups`. -/
structure GroupMeta where
  size : Nat
  target_set : Option (List Nat)
  assigned_numbers : List Nat
  chosen_area : Option Nat
deriving DecidableEq, Repr

/-- The field-groups mapping; a missing key is `none`. -/
def Groups : Type := GKey → Option GroupMeta

/-- Mirrors `build_field_groups`: count the שטח bookings per
(family, room_type, check_in, check_out) key, then attach the target set. -/
def build_field_groups (bookings : List Booking) : Groups :=
  let step : Groups → Booking → Groups := fun g b =>
    if is_field_type b.room_type then
      fun k =>
        if k = bkey b then
          some (match g (bkey b) with
            | some meta => { meta with size := meta.size + 1 }
            | none => { size := 1, target_set := none, assigned_numbers := [], chosen_area := none })
        else g k
    else g
  let g0 := bookings.foldl step fun _ => none
  fun k =>
    match g0 k with
    | some meta => some { meta with target_set := field_target_set meta.size }
    | none => none

/-- The area of each assigned room number (`field_area_id(n) for n in assigned_numbers`);
entries can be `none` for numbers outside both areas. -/
def areasOf (ns : List Nat) : List (Option Nat) :=
  ns.map fun n => field_area_id (some n)

/-- Mirrors `score_candidate`.  Returns the penalty, the tie-break tuple, and the
updated groups: the source mutates `meta["chosen_area"]` in place while
scoring, so the groups state is threaded through. -/
def score_candidate (booking : Booking) (room : Room)
    (family_serial_memory : String → List String) (groups : Groups)
    (waive_serial waive_forced use_soft : Bool) : (Int × List String) × Groups :=
  if !use_soft then
    ((0, [room.room_type, room.room]), groups)
  else Id.run do
    let mut penalty : Int := 0
    let mut gs := groups
    -- forced_room preference
    if !waive_forced then
      match booking.forced_room with
      | some fr =>
          if trimS room.room ≠ trimS fr then penalty := penalty + 5
          else penalty := penalty - 10
      | none => pure ()
    -- serial adjacency
    if !waive_serial then
      match (family_serial_memory booking.family).getLast? with
      | some lastRoom =>
          if are_serial lastRoom room.room then penalty := penalty - 3
          else penalty := penalty + 1
      | none => pure ()
    -- שטח preferences and cluster rules
    if is_field_type booking.room_type then
      let key := bkey booking
      let num := extract_room_number room.room
      let area := field_area_id num
      match gs key with
      | some meta =>
          let mut m := meta
          if m.size > 1 ∧ m.assigned_numbers ≠ [] then
            let assignedAreas := (areasOf m.assigned_numbers).dedup
            let chosen0 := m.chosen_area
            let mut chosen := chosen0
            if chosen0 = none ∧ assignedAreas.length = 1 then
              chosen := assignedAreas.head?.getD none
              m := { m with chosen_area := chosen }
            if chosen ≠ none ∧ area ≠ none then
              penalty := penalty + (if area ≠ chosen then 6 else -2)
          match m.target_set with
          | some ts =>
              match num with
              | some n =>
                  if ts.contains n then
                    penalty := penalty - (12 - (ts.indexOf n : Int))
                  else
                    let tsAreas := (areasOf ts).dedup
                    if tsAreas.length = 1 ∧ area ≠ none ∧ tsAreas.head?.getD none = area then
                      penalty := penalty - 1
              | none =>
                  let tsAreas := (areasOf ts).dedup
                  if tsAreas.length = 1 ∧ area ≠ none ∧ tsAreas.head?.getD none = area then
                    penalty := penalty - 1
          | none => pure ()
          if m.size = 1 then
            match num with
            | some n =>
                if PROHIBITED_SINGLE_ROOMS.contains n then penalty := penalty + 50
                if n = LAST_PRIORITY_ROOM then penalty := penalty + 100
            | none => pure ()
          let assigned := m.assigned_numbers
          for cluster in FIELD_CLUSTERS do
            if assigned.any cluster.contains then
              let numIn : Bool := match num with
                | some n => cluster.contains n
                | none => false
              if (numIn && assigned.any fun a => !cluster.contains a)
                  || (!numIn && assigned.any cluster.contains) then
                penalty := penalty + 30
          let mFixed := m
          gs := fun k => if k = key then some mFixed else gs k
      | none => pure ()
    return ((penalty, [room.room_type, room.room]), gs)

/-! ## `solver._search_assignments`: state, feasibility, MRV backtracking -/

/-- A possibly-NaT interval, as stored in the solver's `intervals` dict
(`pd.to_datetime(..., errors="coerce")` on each endpoint). -/
abbrev OInterval := Option Nat × Option Nat

/-- Comparison of possibly-NaT timestamps: any comparison with NaT is false. -/
def optLt : Option Nat → Option Nat → Bool
  | some a, some b => decide (a < b)
  | _, _ => false

/-- The mutable state of one `_search_assignments` call: the per-room interval
calendars, the per-family serial memory, the (reset) field groups, the node
counter, the budget flag and the best-so-far assignment. -/
structure SState where
  cal : String → List OInterval
  famMem : String → List String
  groups : Groups
  explored : Nat
  timedOut : Bool
  best : List (Nat × String)
  bestPen : Option Int

/-- Read-only context of one `_search_assignments` call. -/
structure SearchCtx where
  bookings : List Booking
  ivf : Nat → OInterval
  roomsByType : String → List Room
  depthOrder : List (Nat × Booking)
  nodeLimit : Nat
  waive_serial : Bool
  waive_forced : Bool
  use_soft : Bool

/-- Mirrors the inner `feasible`: the booking's interval parses and does not
conflict with anything already on the candidate room's calendar. -/
def feasible (ctx : SearchCtx) (cal : String → List OInterval) (b : Booking) (rm : Room) :
    Bool :=
  let iv := ctx.ivf b.idx
  if iv.1.isNone || iv.2.isNone then false
  else (cal rm.room).all fun e => !(optLt iv.1 e.2 && optLt e.1 iv.2)

/-- Membership of a booking id in the current assignment map. -/
def mapHas (m : List (Nat × String)) (bid : Nat) : Bool :=
  m.any fun e => e.1 == bid

/-- Candidate generation of `backtrack`: for every still-unassigned booking in
depth order, the feasible rooms of its type, hard-filtered to the forced room
when one is pinned.  Entries are (candidate count, position, booking, rooms),
matching the `(len(feas), pos, bid)` triples plus `candidates_per_bid`. -/
def genCands (ctx : SearchCtx) (cal : String → List OInterval) (curMap : List (Nat × String)) :
    List (Nat × Nat × Booking × List Room) :=
  ctx.depthOrder.filterMap fun pb =>
    if mapHas curMap pb.2.idx then none
    else
      let feas0 := (ctx.roomsByType pb.2.room_type).filter fun rm => feasible ctx cal pb.2 rm
      let feas := match pb.2.forced_room with
        | some fr => feas0.filter fun rm => trimS rm.room == trimS fr
        | none => feas0
      some (feas.length, pb.1, pb.2, feas)

/-- Lexicographic order on the MRV triples `(len(feas), pos, bid)`. -/
def mrvLe (a b : Nat × Nat × Booking × List Room) : Bool :=
  decide (a.1 < b.1) || (decide (a.1 = b.1) &&
    (decide (a.2.1 < b.2.1) || (decide (a.2.1 = b.2.1) && decide (a.2.2.1.idx ≤ b.2.2.1.idx))))

/-- Score every candidate room in order, threading the groups state mutated by
`score_candidate`. -/
def scoreRooms (ctx : SearchCtx) (famMem : String → List String) (gs : Groups)
    (b : Booking) : List Room → List (Int × Room) × Groups
  | [] => ([], gs)
  | rm :: rest =>
      let s := score_candidate b rm famMem gs ctx.waive_serial ctx.waive_forced ctx.use_soft
      let tl := scoreRooms ctx famMem s.2 b rest
      ((s.1.1, rm) :: tl.1, tl.2)

/-- Push an interval on a room's calendar (`calendars[rm.room].append(...)`). -/
def calPush (cal : String → List OInterval) (room : String) (iv : OInterval) :
    String → List OInterval :=
  fun r => if r = room then cal r ++ [iv] else cal r

/-- Pop the most recent interval of a room (`calendars[rm.room].pop()`). -/
def calPop (cal : String → List OInterval) (room : String) : String → List OInterval :=
  fun r => if r = room then (cal r).dropLast else cal r

/-- Append a room to a family's serial memory. -/
def memPush (mem : String → List String) (fam room : String) : String → List String :=
  fun f => if f = fam then mem f ++ [room] else mem f

/-- Pop the most recent room of a family's serial memory. -/
def memPop (mem : String → List String) (fam : String) : String → List String :=
  fun f => if f = fam then (mem f).dropLast else mem f

/-- The field-group bookkeeping done when tentatively assigning a שטח booking:
add the room number and, if no area is chosen yet, choose this room's area. -/
def groupsAssign (gs : Groups) (key : GKey) (num : Option Nat) : Groups :=
  match gs key, num with
  | some meta, some n =>
      let m1 := { meta with assigned_numbers :=
        if meta.assigned_numbers.contains n then meta.assigned_numbers
        else meta.assigned_numbers ++ [n] }
      let m2 := if m1.chosen_area = none then { m1 with chosen_area := field_area_id (some n) }
        else m1
      fun k => if k = key then some m2 else gs k
  | _, _ => gs

/-- The undo of `groupsAssign` on backtracking: remove the room number
(the chosen area is deliberately not reset in the source). -/
def groupsUnassign (gs : Groups) (key : GKey) (num : Option Nat) : Groups :=
  match gs key, num with
  | some meta, some n =>
      if meta.assigned_numbers.contains n then
        fun k =>
          if k = key then some { meta with assigned_numbers := meta.assigned_numbers.erase n }
          else gs k
      else gs
  | _, _ => gs

/-- Comparison of the running penalty with the best penalty
(`float("inf")` is `none`). -/
def penLt (p : Int) : Option Int → Bool
  | none => true
  | some bp => decide (p < bp)

/-- The tentative-assignment block at the top of the loop body: push the
booking's interval on the candidate room's calendar, record the room in the
family's serial memory, update the שטח group, and compute the recursion
penalty with `score_candidate` on the updated state (threading its group
mutation).  Returns the updated state and the penalty increment. -/
def tentState (ctx : SearchCtx) (st : SState) (b : Booking) (rm : Room) : SState × Int :=
  let gs1 :=
    if is_field_type b.room_type then
      groupsAssign st.groups (bkey b) (extract_room_number rm.room)
    else st.groups
  let famMem1 := memPush st.famMem b.family rm.room
  let s := score_candidate b rm famMem1 gs1 ctx.waive_serial ctx.waive_forced ctx.use_soft
  ({ st with
      cal := calPush st.cal rm.room (ctx.ivf b.idx),
      famMem := famMem1,
      groups := s.2 }, s.1.1)

/-- The undo block of the loop body, run when the recursive call did not return
a complete assignment: pop the calendar, pop the serial memory, and remove the
שטח group number (the source deliberately leaves `chosen_area` as is). -/
def undoState (stR : SState) (b : Booking) (rm : Room) : SState :=
  let gs2 :=
    if is_field_type b.room_type then
      groupsUnassign stR.groups (bkey b) (extract_room_number rm.room)
    else stR.groups
  { stR with
    cal := calPop stR.cal rm.room,
    famMem := memPop stR.famMem b.family,
    groups := gs2 }

/-- The body of `backtrack`'s `for rm in ordered_rooms` loop: tentatively
reserve, recurse through `child` (the one-level-deeper `backtrack`), return
immediately on a complete result, otherwise undo in LIFO order, re-check the
budget (`break`), and try the next room.  Structural recursion on the room
list; `backtrack` below ties the knot on fuel. -/
def tryRooms (ctx : SearchCtx)
    (child : SState → List (Nat × String) → Int → Nat →
      Option (List (Nat × String)) × SState)
    (st : SState) (b : Booking)
    (curMap : List (Nat × String)) (curPen : Int) (depth : Nat) :
    List Room → Option (List (Nat × String)) × SState
  | [] => (none, st)
  | rm :: rest =>
      let curMap' := curMap ++ [(b.idx, rm.room)]
      let sp := tentState ctx st b rm
      let r := child sp.1 curMap' (curPen + sp.2) (depth + 1)
      let success : Bool := match r.1 with
        | some res => res.length == ctx.bookings.length
        | none => false
      if success then r
      else
        let stU := undoState r.2 b rm
        if stU.explored ≥ ctx.nodeLimit then
          (none, { stU with timedOut := true })
        else
          tryRooms ctx child stU b curMap curPen depth rest

/-- Mirrors the recursive `backtrack(depth, current_map, current_pen)`.  The fuel
argument only bounds the recursion depth; it is called with
`bookings.length + 1` and, since every level adds one assignment and stops at
`depth = len(depth_order)`, it never reaches 0.  The wall-clock half of
`now_exceeded` is not modelled; its node-count half is. -/
def backtrack (ctx : SearchCtx) : Nat → SState → List (Nat × String) → Int → Nat →
    Option (List (Nat × String)) × SState
  | 0, st, _, _, _ => (none, st)
  | fuel' + 1, st, curMap, curPen, depth =>
    if st.explored ≥ ctx.nodeLimit then
      (none, { st with timedOut := true })
    else
      let isNewBest := curMap.length > st.best.length
        ∨ (curMap.length = st.best.length ∧ penLt curPen st.bestPen)
      let st1 := { st with
        best := if isNewBest then curMap else st.best,
        bestPen := if isNewBest then some curPen else st.bestPen }
      if depth = ctx.depthOrder.length then (some curMap, st1)
      else
        let cands := genCands ctx st1.cal curMap
        let st2 := { st1 with explored := st1.explored + 1 }
        if cands.isEmpty then (some curMap, st2)
        else
          match (stableSort mrvLe cands).head? with
          | none => (some curMap, st2)
          | some c =>
            let b := c.2.2.1
            let feas := c.2.2.2
            let sc := scoreRooms ctx st2.famMem st2.groups b feas
            let ordered := (stableSort (fun x y => decide (x.1 ≤ y.1)) sc.1).map fun e => e.2
            let st3 := { st2 with groups := sc.2 }
            tryRooms ctx (backtrack ctx fuel') st3 b curMap curPen depth ordered

/-- The solver's `intervals` dict: booking id to pandas-parsed endpoint pair
(later bookings override earlier ones on a duplicate id, like a dict
comprehension). -/
def mkIvf (bookings : List Booking) : Nat → OInterval :=
  fun i =>
    match (bookings.filter fun b => b.idx == i).getLast? with
    | some b => (pandas_to_datetime b.check_in, pandas_to_datetime b.check_out)
    | none => (none, none)

/-- The `field_groups = {k: dict(v) for ...}` copy at the top of
`_search_assignments`: keep only the groups of this call's bookings and reset
`assigned_numbers` / `chosen_area`. -/
def filterGroups (gall : Groups) (bookings : List Booking) : Groups :=
  fun k =>
    if bookings.any fun b => is_field_type b.room_type && bkey b == k then
      match gall k with
      | some meta => some { meta with assigned_numbers := [], chosen_area := none }
      | none => none
    else none

/-- The depth order: forced bookings first, then the rest, each in input order,
paired with their original positions. -/
def mkDepthOrder (bookings : List Booking) : List (Nat × Booking) :=
  let eb := bookings.enum
  (eb.filter fun pb => pb.2.forced_room.isSome) ++ (eb.filter fun pb => pb.2.forced_room.isNone)

/-- Context construction shared by the search entry points. -/
def mkCtx (bookings : List Booking) (rooms : List Room)
    (waive_serial waive_forced : Bool) (node_limit : Nat) (use_soft : Bool) : SearchCtx where
  bookings := bookings
  ivf := mkIvf bookings
  roomsByType := fun t => rooms.filter fun rm => rm.room_type == t
  depthOrder := mkDepthOrder bookings
  nodeLimit := node_limit
  waive_serial := waive_serial
  waive_forced := waive_forced
  use_soft := use_soft

/-- The initial search state. -/
def initState (gs : Groups) : SState where
  cal := fun _ => []
  famMem := fun _ => []
  groups := gs
  explored := 0
  timedOut := false
  best := []
  bestPen := none

/-- The raw recursion result of `_search_assignments`: the value of
`backtrack(0, {}, 0)` together with the final mutable state. -/
def _search_core (bookings : List Booking) (rooms : List Room)
    (field_groups_all : Groups) (waive_serial waive_forced : Bool)
    (node_limit : Nat) (use_soft : Bool) :
    Option (List (Nat × String)) × SState :=
  let ctx := mkCtx bookings rooms waive_serial waive_forced node_limit use_soft
  backtrack ctx (bookings.length + 1) (initState (filterGroups field_groups_all bookings)) [] 0 0

/-- Mirrors `_search_assignments`: returns
`(full or best_map, complete, explored_nodes, timed_out)`.  The
`time_limit_sec` argument and the unused `log` callback are not modelled. -/
def _search_assignments (bookings : List Booking) (rooms : List Room)
    (field_groups_all : Groups) (waive_serial waive_forced : Bool)
    (node_limit : Nat) (use_soft : Bool) :
    List (Nat × String) × Bool × Nat × Bool :=
  let r := _search_core bookings rooms field_groups_all waive_serial waive_forced
    node_limit use_soft
  let complete : Bool := match r.1 with
    | some m => m.length == bookings.length
    | none => false
  let retMap := match r.1 with
    | some m => if m.isEmpty then r.2.best else m
    | none => r.2.best
  (retMap, complete, r.2.explored, r.2.timedOut)

/-! ## `solver.assign_rooms` -/

/-- An input row of `families_df`, as handed over by the ingestion collaborator:
the five already-typed string fields (a missing `forced_room` column and the
`full_name` header fallbacks are ingestion-side and appear here as the
resolved values; `fillna("")` makes every field a string). -/
structure FamRow where
  family : String
  room_type : String
  check_in : String
  check_out : String
  forced_room : String
deriving DecidableEq, Repr

/-- An input row of `rooms_df`. -/
structure RoomRow where
  room : String
  room_type : String
deriving DecidableEq, Repr

/-- The log lines emitted by `assign_rooms` through its `log_func` callback,
as structured events (the `Start search` banner's wall-clock budget text is
not modelled, so the events carry the data the lines interpolate). -/
inductive LogEvent where
  | noRooms (rt : String)
  | startSearch (rt : String) (waive_serial waive_forced : Bool)
  | searchDone (rt : String) (explored : Nat) (timedOut : Bool)
      (assigned total : Nat) (complete : Bool)
deriving DecidableEq, Repr

/-- The rendered text of the no-rooms diagnostic,
`f"[{rt}] No rooms available for this type."`. -/
def noRoomsLine (rt : String) : String :=
  "[" ++ rt ++ "] No rooms available for this type."

/-- Booking construction from the families frame: index becomes `idx`, fields
are stripped, an empty `forced_room` becomes `None`. -/
def mkBookings (families : List FamRow) : List Booking :=
  families.enum.map fun pr =>
    { idx := pr.1
      family := trimS pr.2.family
      room_type := trimS pr.2.room_type
      check_in := trimS pr.2.check_in
      check_out := trimS pr.2.check_out
      forced_room := if trimS pr.2.forced_room = "" then none else some (trimS pr.2.forced_room) }

/-- Room construction from the rooms frame. -/
def mkRooms (rooms : List RoomRow) : List Room :=
  rooms.map fun r => { room := trimS r.room, room_type := trimS r.room_type }

/-- The sorted list of room types that have bookings
(`sorted(bookings_by_type.keys())`). -/
def rtList (bookings : List Booking) : List String :=
  stableSort strLe ((bookings.map fun b => b.room_type).dedup)

/-- The relaxation ladder of `assign_rooms`:
`(waive_serial, waive_forced)` in the order the source tries them. -/
def ladderStages : List (Bool × Bool) := [(true, false), (false, false), (true, true)]

/-- The keyword-only parameters of `_search_assignments` — everything after
the bare `*` in its signature — none of which carries a default value, so
Python requires a keyword argument for each of them at every call. -/
def searchKwOnlyParams : List String :=
  ["waive_serial", "waive_forced", "time_limit_sec", "node_limit", "log", "use_soft"]

/-- The keyword arguments the relaxation-ladder call site inside
`assign_rooms` actually passes to `_search_assignments`. -/
def ladderCallKeywords : List String :=
  ["waive_serial", "waive_forced", "time_limit_sec", "node_limit", "log"]

/-- The message of the `TypeError` CPython raises when a required keyword-only
parameter is missing at a call (CPython additionally quotes the parameter
name). -/
def missingKwOnlyMsg (p : String) : String :=
  "_search_assignments() missing 1 required keyword-only argument: " ++ p

/-- The ladder's call expression under Python's call-binding protocol: the
call runs the callee only if every required keyword-only parameter of
`_search_assignments` is supplied by the call site; otherwise it raises
`TypeError` naming the first missing parameter before the callee body starts.
The bound-call branch forwards the stage flags, the per-type node budget and
the `use_soft` value the call would have to supply (the wall-clock and `log`
arguments stay outside the embedding, as everywhere else). -/
def callSearchFromLadder (bk : List Booking) (rms : List Room) (fg : Groups)
    (ws wf : Bool) (nPer : Nat) (us : Bool) :
    Except String (List (Nat × String) × Bool × Nat × Bool) :=
  match searchKwOnlyParams.filter fun p => !(ladderCallKeywords.contains p) with
  | [] => .ok (_search_assignments bk rms fg ws wf nPer us)
  | p :: _ => .error (missingKwOnlyMsg p)

/-- The per-type ladder loop of `assign_rooms`: for each stage, call
`_search_assignments` through the call protocol above, keep the largest map
found, break at the first complete one, and propagate an exception from the
call.  Returns the accumulated (best_map, best_complete) and the stage log
events, or the raised error. -/
def runLadderE (rt : String) (bk : List Booking) (rms : List Room) (fg : Groups)
    (nPer : Nat) (use_soft : Bool) :
    List (Bool × Bool) → List (Nat × String) × Bool →
      Except String ((List (Nat × String) × Bool) × List LogEvent)
  | [], acc => .ok (acc, [])
  | stage :: rest, acc =>
      match callSearchFromLadder bk rms fg stage.1 stage.2 nPer use_soft with
      | .error e => .error e
      | .ok r =>
          let logs1 := [LogEvent.startSearch rt stage.1 stage.2,
            LogEvent.searchDone rt r.2.2.1 r.2.2.2 r.1.length bk.length r.2.1]
          let acc' := if r.1.length > acc.1.length then (r.1, r.2.1) else acc
          if r.2.1 then .ok (acc', logs1)
          else
            match runLadderE rt bk rms fg nPer use_soft rest acc' with
            | .error e => .error e
            | .ok tail => .ok (tail.1, logs1 ++ tail.2)

/-- One iteration of the `for rt in rt_list` loop of `assign_rooms`, folding
the global assignment map and the log: skip types without bookings, log the
diagnostic for types without rooms, and otherwise run the ladder — whose
exception, if any, aborts the whole solve (there is no `try` around the
loop). -/
def assignStepE (perTypeBookings : String → List Booking)
    (perTypeRooms : String → List Room) (nPer : Nat) (use_soft : Bool)
    (acc : (Nat → Option String) × List LogEvent) (rt : String) :
    Except String ((Nat → Option String) × List LogEvent) :=
  let bk := perTypeBookings rt
  let rms := perTypeRooms rt
  if bk.isEmpty then .ok acc
  else if rms.isEmpty then .ok (acc.1, acc.2 ++ [LogEvent.noRooms rt])
  else
    match runLadderE rt bk rms (build_field_groups bk) nPer use_soft
        ladderStages ([], false) with
    | .error e => .error e
    | .ok r =>
        .ok (fun i =>
          match List.lookup i r.1.1 with
          | some room => some room
          | none => acc.1 i,
         acc.2 ++ r.2)

/-- The `rt_list` the solve iterates over: the sorted types with bookings, or
the single pseudo-type of the one-shot mode. -/
def rtlOf (families : List FamRow) (solve_per_type : Bool) : List String :=
  if solve_per_type then rtList (mkBookings families) else ["<all>"]

/-- The bookings handed to one per-type solve (`bookings_by_type[rt]`, or all
bookings in the one-shot mode). -/
def pTBOf (families : List FamRow) (solve_per_type : Bool) : String → List Booking :=
  fun rt =>
    if solve_per_type then (mkBookings families).filter fun b => b.room_type == rt
    else mkBookings families

/-- The rooms handed to one per-type solve. -/
def pTROf (rooms : List RoomRow) (solve_per_type : Bool) : String → List Room :=
  fun rt =>
    if solve_per_type then (mkRooms rooms).filter fun rm => rm.room_type == rt
    else mkRooms rooms

/-- The per-type node budget `max(node_limit // max(1, len(rt_list)), 20000)`. -/
def nPerOf (families : List FamRow) (node_limit : Nat) (solve_per_type : Bool) : Nat :=
  max (node_limit / max 1 (rtlOf families solve_per_type).length) 20000

/-- The whole `for rt in rt_list` loop: fold `assignStepE` over the type
list, accumulating the global id-to-room function and the log, and stopping
at the first raised exception. -/
def assignFoldE (families : List FamRow) (rooms : List RoomRow)
    (node_limit : Nat) (solve_per_type use_soft : Bool) :
    Except String ((Nat → Option String) × List LogEvent) :=
  (rtlOf families solve_per_type).foldlM
    (assignStepE (pTBOf families solve_per_type) (pTROf rooms solve_per_type)
      (nPerOf families node_limit solve_per_type) use_soft)
    ((fun _ => none), [])

/-- The output rows: every booking becomes a row carrying its fields and the
room the global function found for it (empty string when unassigned). -/
def rowsOutOf (families : List FamRow) (fn : Nat → Option String) : List OutRow :=
  (mkBookings families).map fun b =>
    { idx := b.idx, id := b.idx, family := b.family, room_type := b.room_type,
      check_in := b.check_in, check_out := b.check_out,
      forced_room := b.forced_room.getD "", room := (fn b.idx).getD "" : OutRow }

/-- Mirrors the exported `solver.assign_rooms` including its unhandled error
path (the wall-clock budget stays unmodelled): build bookings and rooms,
iterate the per-type (or one-shot `<all>`) ladder, and — only when every
ladder call binds — split the rows into assigned and unassigned tables by
whether a room was found.  A `TypeError` raised inside the loop propagates
out of the solve; log lines already emitted through `log_func` before a raise
are side effects outside the returned value and are not modelled on the
error path. -/
def assign_roomsE (families : List FamRow) (rooms : List RoomRow)
    (node_limit : Nat := 500000) (solve_per_type : Bool := true)
    (use_soft : Bool := true) :
    Except String (List OutRow × List OutRow × List LogEvent) :=
  match assignFoldE families rooms node_limit solve_per_type use_soft with
  | .error e => .error e
  | .ok fold =>
      let rowsOut := rowsOutOf families fold.1
      .ok (rowsOut.filter fun r => !(r.room == ""),
        rowsOut.filter fun r => r.room == "", fold.2)

/-! ## Shared helper lemmas -/

/-- Decidable equality for `Except` results with decidable components. -/
instance {ε α : Type} [DecidableEq ε] [DecidableEq α] : DecidableEq (Except ε α)
  | .ok a, .ok b => if h : a = b then isTrue (by rw [h]) else isFalse (by simp [h])
  | .ok _, .error _ => isFalse (by simp)
  | .error _, .ok _ => isFalse (by simp)
  | .error a, .error b => if h : a = b then isTrue (by rw [h]) else isFalse (by simp [h])

/-- Lookup success means membership. -/
theorem lookup_mem {l : List (Nat × String)} {a : Nat} {b : String}
    (h : List.lookup a l = some b) : (a, b) ∈ l := by
  induction l with
  | nil => simp [List.lookup] at h
  | cons hd tl ih =>
      rw [List.lookup] at h
      by_cases hc : a == hd.1
      · rw [hc] at h
        simp only [Option.some.injEq] at h
        have h1 : hd.1 = a := by
          have := of_decide_eq_true hc
          omega
        have : hd = (a, b) := by
          cases hd
          simp_all
        rw [this]
        exact List.mem_cons_self _ _
      · rw [Bool.of_not_eq_true hc] at h
        exact List.mem_cons_of_mem _ (ih h)

/-- Inserting with `insertAfterLe` is a permutation of consing. -/
theorem insertAfterLe_perm (le : α → α → Bool) (a : α) :
    ∀ l : List α, (insertAfterLe le a l).Perm (a :: l) := by
  intro l
  induction l with
  | nil => simp [insertAfterLe]
  | cons b t ih =>
      rw [insertAfterLe]
      by_cases h : le b a
      · simp only [h, if_true]
        exact (ih.cons b).trans (List.Perm.swap a b t)
      · simp [h]

/-- The stable sort is a permutation of its input. -/
theorem stableSort_perm (le : α → α → Bool) (l : List α) :
    (stableSort le l).Perm l := by
  suffices h : ∀ (l : List α) (acc : List α),
      (l.foldl (fun acc a => insertAfterLe le a acc) acc).Perm (acc ++ l) by
    simpa [stableSort] using h l []
  intro l
  induction l with
  | nil => intro acc; simp
  | cons x t ih =>
      intro acc
      rw [List.foldl_cons]
      have h1 := ih (insertAfterLe le x acc)
      have h2 : (insertAfterLe le x acc ++ t).Perm (acc ++ x :: t) :=
        ((insertAfterLe_perm le x acc).append_right t).trans List.perm_middle.symm
      exact h1.trans h2

/-- Membership is preserved by the stable sort. -/
theorem mem_stableSort (le : α → α → Bool) {l : List α} {a : α} :
    a ∈ stableSort le l ↔ a ∈ l :=
  (stableSort_perm le l).mem_iff

/-- Inserting into a sorted list keeps it sorted, for a transitive total
boolean preorder. -/
theorem insertAfterLe_sorted (le : α → α → Bool)
    (htrans : ∀ a b c, le a b = true → le b c = true → le a c = true)
    (htotal : ∀ a b, le a b = true ∨ le b a = true)
    (a : α) : ∀ {l : List α}, l.Pairwise (fun x y => le x y = true) →
      (insertAfterLe le a l).Pairwise (fun x y => le x y = true) := by
  intro l
  induction l with
  | nil => intro _; simp [insertAfterLe]
  | cons b t ih =>
      intro hp
      rw [List.pairwise_cons] at hp
      rw [insertAfterLe]
      by_cases h : le b a = true
      · simp only [h, if_true]
        rw [List.pairwise_cons]
        refine ⟨?_, ih hp.2⟩
        intro x hx
        rcases List.mem_cons.mp ((insertAfterLe_perm le a t).mem_iff.mp hx) with hxa | hxt
        · rw [hxa]; exact h
        · exact hp.1 x hxt
      · have hf : le b a = false := Bool.not_eq_true _ ▸ eq_false_of_ne_true h
        simp only [hf, Bool.false_eq_true, if_false]
        rw [List.pairwise_cons]
        constructor
        · intro x hx
          rcases List.mem_cons.mp hx with hxb | hxt
          · rw [hxb]
            rcases htotal a b with hab | hba
            · exact hab
            · exact absurd hba h
          · rcases htotal a b with hab | hba
            · exact htrans a b x hab (hp.1 x hxt)
            · exact absurd hba h
        · rw [List.pairwise_cons]
          exact hp

/-- The stable sort sorts, for a transitive total boolean preorder. -/
theorem stableSort_sorted (le : α → α → Bool)
    (htrans : ∀ a b c, le a b = true → le b c = true → le a c = true)
    (htotal : ∀ a b, le a b = true ∨ le b a = true)
    (l : List α) : (stableSort le l).Pairwise (fun x y => le x y = true) := by
  suffices h : ∀ (l acc : List α), acc.Pairwise (fun x y => le x y = true) →
      (l.foldl (fun acc a => insertAfterLe le a acc) acc).Pairwise
        (fun x y => le x y = true) by
    exact h l [] (by simp)
  intro l
  induction l with
  | nil => intro acc h; simpa using h
  | cons x t ih =>
      intro acc h
      exact ih _ (insertAfterLe_sorted le htrans htotal x h)

/-! ## C2: the half-open overlap rule -/

/-- C2: the interval overlap test is exactly the half-open rule: `_overlaps`
holds iff `a0 < b1 ∧ b0 < a1`, so a check-out equal to another booking's
check-in is not an overlap; concretely, after reserving [01/01, 03/01) on a
room, the calendar reports [03/01, 05/01) as available on that room (touching
intervals may share it) and [02/01, 04/01) as unavailable (overlapping
intervals never share it). -/
theorem overlap_rule_exact :
    (∀ a0 a1 b0 b1 : Nat, _overlaps a0 a1 b0 b1 = true ↔ a0 < b1 ∧ b0 < a1) ∧
    (∃ cal1, reserve emptyCal "T" "R" "01/01/2024" "03/01/2024" = .ok cal1 ∧
      is_available cal1 "T" "R" "03/01/2024" "05/01/2024" = .ok true ∧
      is_available cal1 "T" "R" "02/01/2024" "04/01/2024" = .ok false) := by
  constructor
  · intro a0 a1 b0 b1
    simp only [_overlaps, Bool.not_eq_true', Bool.or_eq_false_iff, decide_eq_false_iff_not,
      not_le, ge_iff_le]
    omega
  · refine ⟨fun k => if k = ("T", "R") then emptyCal k ++ [(20240101, 20240103)] else emptyCal k,
      ?_, ?_, ?_⟩
    · rfl
    · decide
    · decide

/-! ## C8: validation is deterministic and mutation-free -/

/-- C8: `validate_constraints` does not mutate the table it is given (the source
copy-then-normalizes), and repeated calls on the unmutated table return
identical (hard_ok, soft_violations) results. -/
theorem validate_idempotent_no_mutation (assigned_df : List OutRow) :
    (validateCall assigned_df).2 = assigned_df ∧
    validateCall (validateCall assigned_df).2 = validateCall assigned_df :=
  ⟨rfl, rfl⟩

/-! ## C4: a forced_room label absent from the catalog -/

/-- The C4 failing input: one booking of type T pinned to the absent label "X",
while room "R1" of type T is free the whole time. -/
def c4_families : List FamRow :=
  [{ family := "A", room_type := "T", check_in := "01/01/2024",
     check_out := "03/01/2024", forced_room := "X" }]

/-- The C4 catalog: a single room "R1" of type T. -/
def c4_rooms : List RoomRow := [{ room := "R1", room_type := "T" }]

/-- C4 (code bug): with the forced label "X" absent from type T's catalog, the
spec says the pin is waived (logged, demoted to ordinary status), the booking
stays placeable — room R1 is free — and the solve never raises.  The code
does the opposite twice over.  First, the solve raises `TypeError` at the
first ladder stage (the call site omits the required keyword-only
`use_soft`), so nothing is returned, nothing is waived and nothing is logged
in the returned value.  Second, even beneath the crash, `backtrack`
hard-filters the candidate list by the forced label without consulting the
`waive_forced` flag, so all three ladder stages — had they been called
correctly — would leave the booking with zero candidates and an empty map. -/
theorem absent_forced_label_never_placed :
    assign_roomsE c4_families c4_rooms 500000 true true =
      .error (missingKwOnlyMsg "use_soft") ∧
    (∀ us : Bool, ∀ stage ∈ ladderStages,
      (_search_assignments (mkBookings c4_families) (mkRooms c4_rooms)
        (build_field_groups (mkBookings c4_families)) stage.1 stage.2
        20000 us).1 = []) :=
  ⟨by decide, by decide⟩

/-! ## C7: rebuild-then-validate round trip -/

/-- A rebuild over rows whose stored dates all parse returns normally. -/
theorem rebuild_ok (rows : List OutRow)
    (h : ∀ r ∈ rows, (parse_date r.check_in).isSome ∧ (parse_date r.check_out).isSome) :
    ∃ c, rebuild_calendar_from_assignments rows = .ok c := by
  unfold rebuild_calendar_from_assignments
  suffices hgen : ∀ (l : List OutRow) (cal : CalState),
      (∀ r ∈ l, (parse_date r.check_in).isSome ∧ (parse_date r.check_out).isSome) →
      ∃ c, l.foldlM (fun cal r => reserve cal r.room_type r.room r.check_in r.check_out) cal
        = .ok c by
    exact hgen rows emptyCal h
  intro l
  induction l with
  | nil => intro cal _; exact ⟨cal, rfl⟩
  | cons r t ih =>
      intro cal hall
      obtain ⟨hci, hco⟩ := hall r (List.mem_cons_self _ _)
      obtain ⟨ci, hci'⟩ := Option.isSome_iff_exists.mp hci
      obtain ⟨co, hco'⟩ := Option.isSome_iff_exists.mp hco
      rw [List.foldlM_cons]
      have hres : reserve cal r.room_type r.room r.check_in r.check_out =
          .ok (fun k => if k = (trimS r.room_type, trimS r.room) then cal k ++ [(ci, co)]
            else cal k) := by
        unfold reserve
        rw [hci', hco']
      rw [hres]
      exact ih _ fun x hx => hall x (List.mem_cons_of_mem _ hx)

/-- C7 counterexample to the claim as stated: on a table holding an unparseable
stored date, the rebuild raises (`strptime` inside `reserve`), so
rebuild-then-validate does not return the `(hard_ok, soft_violations)` that
`validate_constraints` alone returns (which is `(false, [])`). -/
def c7_bad_table : List OutRow :=
  [{ idx := 0, id := 0, family := "fam", room_type := "T", check_in := "banana",
     check_out := "03/01/2024", forced_room := "", room := "R1" }]

/-- C7 counterexample: the round trip raises on `c7_bad_table` while plain
validation returns `(false, [])`, so they do not return the same result. -/
theorem roundtrip_fails_on_unparseable :
    (rebuildThenValidate c7_bad_table).isOk = false ∧
    validate_constraints c7_bad_table = (false, []) := by
  decide

/-- C7 as amended: on every table whose stored dates all parse (in particular
every untouched solver output), `rebuild_calendar_from_assignments` returns
normally and the subsequent `validate_constraints` on the untouched table
returns exactly what `validate_constraints` alone returns — the rebuild only
replays rows into a fresh calendar, which validation never reads. -/
theorem roundtrip_validate (assigned_df : List OutRow)
    (h : ∀ r ∈ assigned_df,
      (parse_date r.check_in).isSome ∧ (parse_date r.check_out).isSome) :
    rebuildThenValidate assigned_df = .ok (validate_constraints assigned_df) := by
  obtain ⟨c, hc⟩ := rebuild_ok assigned_df h
  unfold rebuildThenValidate
  rw [hc]

/-- A concrete parseable table for the C7 witness. -/
def c7_good_table : List OutRow :=
  [{ idx := 0, id := 0, family := "fam", room_type := "T", check_in := "01/01/2024",
     check_out := "03/01/2024", forced_room := "", room := "R1" },
   { idx := 1, id := 1, family := "fam", room_type := "T", check_in := "03/01/2024",
     check_out := "05/01/2024", forced_room := "", room := "R1" }]

/-- C7 witness: the amended round trip at a concrete table. -/
theorem roundtrip_validate_witness :
    rebuildThenValidate c7_good_table = .ok (validate_constraints c7_good_table) :=
  roundtrip_validate c7_good_table (by decide)

/-! ## C6: the hard check versus the pairwise non-overlap condition -/

/-- Half-open overlap of two rows' stored intervals; false unless all four
dates parse. -/
def rowsOverlapB (a b : OutRow) : Bool :=
  match parse_date a.check_in, parse_date a.check_out,
      parse_date b.check_in, parse_date b.check_out with
  | some a1, some a2, some b1, some b2 => _overlaps a1 a2 b1 b2
  | _, _, _, _ => false

/-- The condition claim C6 states for `hard_ok`, following the spec's words:
every stored date parses, and within every (room_type, room) group the
intervals are pairwise non-overlapping under the half-open rule. -/
def claimPairwiseOk (assigned_df : List OutRow) : Prop :=
  (∀ r ∈ normRows assigned_df,
    (parse_date r.check_in).isSome ∧ (parse_date r.check_out).isSome) ∧
  ∀ k ∈ hardKeys (normRows assigned_df),
    (groupRows (normRows assigned_df) k).Pairwise fun a b => rowsOverlapB a b = false

instance (assigned_df : List OutRow) : Decidable (claimPairwiseOk assigned_df) := by
  unfold claimPairwiseOk
  infer_instance

/-- Overlap in the true case, as a proposition. -/
theorem overlaps_true_iff (p q r s : Nat) :
    _overlaps p q r s = true ↔ p < s ∧ r < q := by
  simp only [_overlaps, Bool.not_eq_true', Bool.or_eq_false_iff, decide_eq_false_iff_not,
    not_le, ge_iff_le]
  omega

/-- Overlap in the false case, as a proposition. -/
theorem overlaps_false_iff (p q r s : Nat) :
    _overlaps p q r s = false ↔ q ≤ r ∨ s ≤ p := by
  simp only [_overlaps, Bool.not_eq_false', Bool.or_eq_true, decide_eq_true_eq, ge_iff_le]

/-- The overlap test is symmetric. -/
theorem overlaps_comm (p q r s : Nat) :
    _overlaps p q r s = _overlaps r s p q := by
  simp only [_overlaps, ge_iff_le]
  rw [Bool.or_comm]

/-- The interval order of the group sort is transitive. -/
theorem ivLe_trans (a b c : Nat × Nat) (hab : ivLe a b = true) (hbc : ivLe b c = true) :
    ivLe a c = true := by
  simp only [ivLe, Bool.or_eq_true, Bool.and_eq_true, decide_eq_true_eq] at *
  omega

/-- The interval order of the group sort is total. -/
theorem ivLe_total (a b : Nat × Nat) : ivLe a b = true ∨ ivLe b a = true := by
  simp only [ivLe, Bool.or_eq_true, Bool.and_eq_true, decide_eq_true_eq]
  omega

/-- In a sorted list of well-formed intervals whose adjacent pairs do not
overlap, every earlier interval ends no later than every later one starts. -/
theorem sep_of_sorted_adj : ∀ (l : List (Nat × Nat)),
    l.Pairwise (fun a b => ivLe a b = true) →
    (∀ iv ∈ l, iv.1 ≤ iv.2) →
    adjOk l = true →
    l.Pairwise fun a b => a.2 ≤ b.1 := by
  intro l
  induction l with
  | nil => intro _ _ _; exact List.Pairwise.nil
  | cons a t ih =>
      intro hsort hwf hadj
      rw [List.pairwise_cons] at hsort
      cases t with
      | nil => simp
      | cons b t' =>
          rw [adjOk, Bool.and_eq_true] at hadj
          have hab : ivLe a b = true := hsort.1 b (List.mem_cons_self _ _)
          have hwa : a.1 ≤ a.2 := hwf a (List.mem_cons_self _ _)
          have hwb : b.1 ≤ b.2 :=
            hwf b (List.mem_cons_of_mem _ (List.mem_cons_self _ _))
          have key : a.2 ≤ b.1 := by
            have h1 : _overlaps a.1 a.2 b.1 b.2 = false := by
              have := hadj.1
              cases h : _overlaps a.1 a.2 b.1 b.2
              · rfl
              · rw [h] at this; simp at this
            rw [overlaps_false_iff] at h1
            simp only [ivLe, Bool.or_eq_true, Bool.and_eq_true, decide_eq_true_eq] at hab
            omega
          have htail := ih hsort.2 (fun iv h => hwf iv (List.mem_cons_of_mem _ h)) hadj.2
          rw [List.pairwise_cons]
          refine ⟨?_, htail⟩
          intro x hx
          rcases List.mem_cons.mp hx with hxb | hxt'
          · rw [hxb]; exact key
          · have hbx : b.2 ≤ x.1 := (List.pairwise_cons.mp htail).1 x hxt'
            omega

/-- Pairwise non-overlap of a list gives the adjacent-pair scan. -/
theorem adjOk_of_pairwise : ∀ l : List (Nat × Nat),
    l.Pairwise (fun a b => _overlaps a.1 a.2 b.1 b.2 = false) → adjOk l = true := by
  intro l
  induction l with
  | nil => intro _; rfl
  | cons a t ih =>
      intro h
      rw [List.pairwise_cons] at h
      cases t with
      | nil => rfl
      | cons b t' =>
          rw [adjOk, Bool.and_eq_true]
          exact ⟨by rw [h.1 b (List.mem_cons_self _ _)]; rfl, ih h.2⟩

/-- The sorted adjacent-pair scan is exactly pairwise non-overlap, for
well-formed (start ≤ end) intervals. -/
theorem adjOk_sorted_iff (l : List (Nat × Nat)) (hwf : ∀ iv ∈ l, iv.1 ≤ iv.2) :
    adjOk (stableSort ivLe l) = true ↔
      l.Pairwise fun a b => _overlaps a.1 a.2 b.1 b.2 = false := by
  have hperm := stableSort_perm ivLe l
  have hsorted := stableSort_sorted ivLe ivLe_trans ivLe_total l
  have hsymm : ∀ {a b : Nat × Nat}, _overlaps a.1 a.2 b.1 b.2 = false →
      _overlaps b.1 b.2 a.1 a.2 = false := by
    intro a b h
    rw [overlaps_comm]
    exact h
  constructor
  · intro h
    refine (hperm.pairwise_iff hsymm).mp ?_
    have hsep := sep_of_sorted_adj _ hsorted (fun iv hh => hwf iv (hperm.mem_iff.mp hh)) h
    refine hsep.imp ?_
    intro a b hab
    rw [overlaps_false_iff]
    omega
  · intro h
    exact adjOk_of_pairwise _ ((hperm.pairwise_iff hsymm).mpr h)

/-- A group parses entirely iff `parseGroup` succeeds. -/
theorem parseGroup_some_iff (g : List OutRow) :
    (∃ ivs, parseGroup g = some ivs) ↔
      ∀ r ∈ g, (parse_date r.check_in).isSome ∧ (parse_date r.check_out).isSome := by
  induction g with
  | nil => simp [parseGroup]
  | cons r t ih =>
      constructor
      · rintro ⟨ivs, hivs⟩
        rw [parseGroup] at hivs
        cases hci : parse_date r.check_in with
        | none =>
            rw [hci] at hivs
            cases hco : parse_date r.check_out <;> rw [hco] at hivs <;> simp at hivs
        | some ci =>
            cases hco : parse_date r.check_out with
            | none =>
                rw [hci, hco] at hivs
                simp at hivs
            | some co =>
                rw [hci, hco] at hivs
                simp only [Option.map_eq_some'] at hivs
                obtain ⟨tl, htl, _⟩ := hivs
                intro x hx
                rcases List.mem_cons.mp hx with hxr | hxt
                · subst hxr
                  exact ⟨by rw [hci]; rfl, by rw [hco]; rfl⟩
                · exact ih.mp ⟨tl, htl⟩ x hxt
      · intro h
        obtain ⟨ci, hci⟩ := Option.isSome_iff_exists.mp (h r (List.mem_cons_self _ _)).1
        obtain ⟨co, hco⟩ := Option.isSome_iff_exists.mp (h r (List.mem_cons_self _ _)).2
        obtain ⟨tl, htl⟩ := ih.mpr fun x hx => h x (List.mem_cons_of_mem _ hx)
        exact ⟨(ci, co) :: tl, by rw [parseGroup, hci, hco, htl]; rfl⟩

/-- The parsed interval pair of a row, defaulting to 0 (used only where both
parses are known to succeed). -/
def parsedIv (r : OutRow) : Nat × Nat :=
  ((parse_date r.check_in).getD 0, (parse_date r.check_out).getD 0)

/-- Value of `parseGroup` on a fully parseable group. -/
theorem parseGroup_eq_map (g : List OutRow)
    (h : ∀ r ∈ g, (parse_date r.check_in).isSome ∧ (parse_date r.check_out).isSome) :
    parseGroup g = some (g.map parsedIv) := by
  induction g with
  | nil => rfl
  | cons r t ih =>
      obtain ⟨ci, hci⟩ := Option.isSome_iff_exists.mp (h r (List.mem_cons_self _ _)).1
      obtain ⟨co, hco⟩ := Option.isSome_iff_exists.mp (h r (List.mem_cons_self _ _)).2
      rw [parseGroup, hci, hco, ih fun x hx => h x (List.mem_cons_of_mem _ hx)]
      simp [parsedIv, hci, hco]

/-- On rows that parse, `rowsOverlapB` is the overlap of the parsed intervals. -/
theorem rowsOverlapB_eq (a b : OutRow)
    (ha : (parse_date a.check_in).isSome ∧ (parse_date a.check_out).isSome)
    (hb : (parse_date b.check_in).isSome ∧ (parse_date b.check_out).isSome) :
    rowsOverlapB a b =
      _overlaps (parsedIv a).1 (parsedIv a).2 (parsedIv b).1 (parsedIv b).2 := by
  obtain ⟨a1, ha1⟩ := Option.isSome_iff_exists.mp ha.1
  obtain ⟨a2, ha2⟩ := Option.isSome_iff_exists.mp ha.2
  obtain ⟨b1, hb1⟩ := Option.isSome_iff_exists.mp hb.1
  obtain ⟨b2, hb2⟩ := Option.isSome_iff_exists.mp hb.2
  rw [rowsOverlapB, ha1, ha2, hb1, hb2]
  simp [parsedIv, ha1, ha2, hb1, hb2]

/-- The hard check of one group is exactly: everything parses and the group is
pairwise non-overlapping — provided parsed intervals are well-formed. -/
theorem groupHardOk_iff (g : List OutRow)
    (hwf : ∀ r ∈ g, ∀ a b, parse_date r.check_in = some a →
      parse_date r.check_out = some b → a ≤ b) :
    groupHardOk g = true ↔
      ((∀ r ∈ g, (parse_date r.check_in).isSome ∧ (parse_date r.check_out).isSome) ∧
        g.Pairwise fun a b => rowsOverlapB a b = false) := by
  constructor
  · intro h
    have hsome : ∃ ivs, parseGroup g = some ivs := by
      rw [groupHardOk] at h
      cases hpg : parseGroup g with
      | none => rw [hpg] at h; simp at h
      | some v => exact ⟨v, rfl⟩
    have hall := (parseGroup_some_iff g).mp hsome
    refine ⟨hall, ?_⟩
    rw [groupHardOk, parseGroup_eq_map g hall] at h
    have hwfm : ∀ iv ∈ g.map parsedIv, iv.1 ≤ iv.2 := by
      intro iv hiv
      obtain ⟨r, hr, hriv⟩ := List.mem_map.mp hiv
      obtain ⟨ci, hci⟩ := Option.isSome_iff_exists.mp (hall r hr).1
      obtain ⟨co, hco⟩ := Option.isSome_iff_exists.mp (hall r hr).2
      have := hwf r hr ci co hci hco
      rw [← hriv]
      simp [parsedIv, hci, hco]
      omega
    have hpw := (adjOk_sorted_iff _ hwfm).mp h
    rw [List.pairwise_map] at hpw
    refine hpw.imp_of_mem ?_
    intro a b hma hmb hab
    rw [rowsOverlapB_eq a b (hall a hma) (hall b hmb)]
    exact hab
  · rintro ⟨hall, hpw⟩
    rw [groupHardOk, parseGroup_eq_map g hall]
    have hwfm : ∀ iv ∈ g.map parsedIv, iv.1 ≤ iv.2 := by
      intro iv hiv
      obtain ⟨r, hr, hriv⟩ := List.mem_map.mp hiv
      obtain ⟨ci, hci⟩ := Option.isSome_iff_exists.mp (hall r hr).1
      obtain ⟨co, hco⟩ := Option.isSome_iff_exists.mp (hall r hr).2
      have := hwf r hr ci co hci hco
      rw [← hriv]
      simp [parsedIv, hci, hco]
      omega
    rw [adjOk_sorted_iff _ hwfm, List.pairwise_map]
    refine hpw.imp_of_mem ?_
    intro a b hma hmb hab
    rw [rowsOverlapB_eq a b (hall a hma) (hall b hmb)] at hab
    exact hab

/-- Every row's key is among the sorted group keys. -/
theorem mem_hardKeys {df : List OutRow} {r : OutRow} (h : r ∈ df) :
    (r.room_type, r.room) ∈ hardKeys df := by
  rw [hardKeys, mem_stableSort, List.mem_dedup]
  exact List.mem_map.mpr ⟨r, h, rfl⟩

/-- Every row belongs to the group of its own key. -/
theorem mem_own_group {df : List OutRow} {r : OutRow} (h : r ∈ df) :
    r ∈ groupRows df (r.room_type, r.room) := by
  rw [groupRows, List.mem_filter]
  refine ⟨h, ?_⟩
  simp

/-- C6 counterexample to the claim as stated: a stored reversed interval
(check_in after check_out) defeats the sorted adjacent-pair scan — every date
parses and `hard_ok` is true, yet the first and third rows of the single
(T, R1) group overlap, so the claimed equivalence fails. -/
def c6_table : List OutRow :=
  [{ idx := 0, id := 0, family := "a", room_type := "T", check_in := "01/01/2024",
     check_out := "11/01/2024", forced_room := "", room := "R1" },
   { idx := 1, id := 1, family := "b", room_type := "T", check_in := "06/01/2024",
     check_out := "01/01/2024", forced_room := "", room := "R1" },
   { idx := 2, id := 2, family := "c", room_type := "T", check_in := "07/01/2024",
     check_out := "10/01/2024", forced_room := "", room := "R1" }]

/-- C6 counterexample: `hard_ok` is true on `c6_table` although its single group
is not pairwise non-overlapping. -/
theorem hard_ok_misses_overlap_on_reversed :
    (validate_constraints c6_table).1 = true ∧ ¬ claimPairwiseOk c6_table := by
  constructor
  · decide
  · decide

/-- The well-formedness of one stored row: if both dates parse, check_in is no
later than check_out (decidable form of the repository's precondition). -/
def rowWF (r : OutRow) : Bool :=
  match parse_date r.check_in, parse_date r.check_out with
  | some a, some b => decide (a ≤ b)
  | _, _ => true

/-- Unfolding of `rowWF` at parsed dates. -/
theorem rowWF_spec {r : OutRow} (h : rowWF r = true) :
    ∀ a b, parse_date r.check_in = some a → parse_date r.check_out = some b → a ≤ b := by
  intro a b ha hb
  rw [rowWF, ha, hb] at h
  exact of_decide_eq_true h

/-- C6 as amended: provided every stored interval that parses is well-formed
(parsed check_in ≤ parsed check_out — the repository's stated precondition,
which the counterexample's reversed interval violates), `hard_ok` is true iff
every stored date parses and every (room_type, room) group is pairwise
non-overlapping under the half-open rule; in particular any unparseable
stored date makes `hard_ok` false. -/
theorem hard_ok_exactly_pairwise (assigned_df : List OutRow)
    (hwf : ∀ r ∈ assigned_df, rowWF r = true) :
    (validate_constraints assigned_df).1 = true ↔ claimPairwiseOk assigned_df := by
  have hwfn : ∀ r ∈ normRows assigned_df, ∀ a b, parse_date r.check_in = some a →
      parse_date r.check_out = some b → a ≤ b := by
    intro r hr
    obtain ⟨r0, hr0, hmap⟩ := List.mem_map.mp hr
    have hdates : r.check_in = r0.check_in ∧ r.check_out = r0.check_out := by
      rw [← hmap]
      exact ⟨rfl, rfl⟩
    rw [hdates.1, hdates.2]
    exact rowWF_spec (hwf r0 hr0)
  by_cases hemp : assigned_df.isEmpty = true
  · have hnil : assigned_df = [] := by
      cases assigned_df
      · rfl
      · simp [List.isEmpty] at hemp
    subst hnil
    constructor
    · intro _
      constructor
      · intro r hr; simp [normRows] at hr
      · intro k hk; simp [hardKeys, normRows, stableSort] at hk
    · intro _; rfl
  · have hval : (validate_constraints assigned_df).1 = hard_ok_of (normRows assigned_df) := by
      rw [validate_constraints, if_neg hemp]
    rw [hval]
    unfold claimPairwiseOk
    rw [hard_ok_of, List.all_eq_true]
    constructor
    · intro h
      have hall : ∀ r ∈ normRows assigned_df,
          (parse_date r.check_in).isSome ∧ (parse_date r.check_out).isSome := by
        intro r hr
        have hk := mem_hardKeys hr
        have hg := (groupHardOk_iff (groupRows (normRows assigned_df) (r.room_type, r.room))
          fun x hx => hwfn x (List.mem_of_mem_filter hx)).mp (h _ hk)
        exact hg.1 r (mem_own_group hr)
      refine ⟨hall, ?_⟩
      intro k hk
      exact ((groupHardOk_iff _ fun x hx => hwfn x (List.mem_of_mem_filter hx)).mp (h k hk)).2
    · rintro ⟨hall, hpw⟩
      intro k hk
      refine (groupHardOk_iff _ fun x hx => hwfn x (List.mem_of_mem_filter hx)).mpr ?_
      exact ⟨fun x hx => hall x (List.mem_of_mem_filter hx), hpw k hk⟩

/-- A concrete well-formed table for the C6 witness. -/
def c6_witness_table : List OutRow :=
  [{ idx := 0, id := 0, family := "a", room_type := "T", check_in := "01/01/2024",
     check_out := "03/01/2024", forced_room := "", room := "R1" },
   { idx := 1, id := 1, family := "b", room_type := "T", check_in := "02/01/2024",
     check_out := "04/01/2024", forced_room := "", room := "R1" }]

/-- C6 witness: the amended equivalence at a concrete overlapping table (both
sides false there). -/
theorem hard_ok_exactly_pairwise_witness :
    ((validate_constraints c6_witness_table).1 = true ↔ claimPairwiseOk c6_witness_table) ∧
    (validate_constraints c6_witness_table).1 = false :=
  ⟨hard_ok_exactly_pairwise c6_witness_table (by decide), by decide⟩

/-! ## C5: the ladder under the real call site -/

/-- The ladder call site leaves exactly one required keyword-only parameter of
`_search_assignments` unsupplied: `use_soft`. -/
theorem ladder_call_missing :
    (searchKwOnlyParams.filter fun p => !(ladderCallKeywords.contains p)) =
      ["use_soft"] := by decide

/-- Every ladder-stage call of `_search_assignments` raises the TypeError,
whatever the stage flags and budget are. -/
theorem callSearchFromLadder_error (bk : List Booking) (rms : List Room)
    (fg : Groups) (ws wf : Bool) (nPer : Nat) (us : Bool) :
    callSearchFromLadder bk rms fg ws wf nPer us =
      .error (missingKwOnlyMsg "use_soft") := by
  rw [callSearchFromLadder, ladder_call_missing]

/-- C5 (code bug): no ladder stage ever completes.  The very first
`_search_assignments` call of the ladder raises `TypeError` — the call site
omits the required keyword-only `use_soft` — so for every per-type solve the
ladder aborts before Phase A and the per-stage unassigned counts the claim
compares never exist. -/
theorem ladder_first_stage_raises (rt : String) (bk : List Booking)
    (rms : List Room) (fg : Groups) (nPer : Nat) (us : Bool)
    (acc : List (Nat × String) × Bool) :
    runLadderE rt bk rms fg nPer us ladderStages acc =
      .error (missingKwOnlyMsg "use_soft") := by
  rw [ladderStages, runLadderE, callSearchFromLadder_error]

/-! ## The search invariant: calendars mirror the map, maps never conflict -/

/-- Overlap of two possibly-NaT intervals, exactly as `feasible` tests a new
booking against a stored entry. -/
def ovO (a b : OInterval) : Bool :=
  optLt a.1 b.2 && optLt b.1 a.2

/-- The overlap test on possibly-NaT intervals is symmetric. -/
theorem ovO_comm (a b : OInterval) : ovO a b = ovO b a :=
  Bool.and_comm _ _

/-- The calendar a map induces: the intervals of the entries assigned to a
room, in insertion order. -/
def calOf (ivf : Nat → OInterval) (m : List (Nat × String)) (room : String) :
    List OInterval :=
  (m.filter fun e => e.2 == room).map fun e => ivf e.1

/-- The search calendars mirror the current assignment map. -/
def CalMatch (ivf : Nat → OInterval) (cal : String → List OInterval)
    (m : List (Nat × String)) : Prop :=
  ∀ room, cal room = calOf ivf m room

/-- A sound map entry: it belongs to a real booking of this solve, and that
booking's interval parses on both ends. -/
def goodEntry (bks : List Booking) (ivf : Nat → OInterval) (e : Nat × String) : Prop :=
  (∃ b ∈ bks, b.idx = e.1) ∧ (ivf e.1).1.isSome = true ∧ (ivf e.1).2.isSome = true

/-- A sound assignment map: every entry is sound and entries sharing a room
never overlap. -/
def GoodMap (bks : List Booking) (ivf : Nat → OInterval) (m : List (Nat × String)) : Prop :=
  (∀ e ∈ m, goodEntry bks ivf e) ∧
  m.Pairwise fun e1 e2 => e1.2 = e2.2 → ovO (ivf e1.1) (ivf e2.1) = false

/-- The empty map is sound. -/
theorem goodMap_nil (bks : List Booking) (ivf : Nat → OInterval) : GoodMap bks ivf [] :=
  ⟨fun _ h => absurd h (List.not_mem_nil _), List.Pairwise.nil⟩

/-- Appending one entry to the induced calendar. -/
theorem calOf_snoc (ivf : Nat → OInterval) (m : List (Nat × String)) (bid : Nat)
    (room r : String) :
    calOf ivf (m ++ [(bid, room)]) r =
      calOf ivf m r ++ (if room = r then [ivf bid] else []) := by
  rw [calOf, List.filter_append, List.map_append, calOf]
  congr 1
  by_cases h : room = r
  · subst h; simp
  · have hbeq : (room == r) = false := beq_eq_false_iff_ne.mpr h
    simp [List.filter, hbeq, h]

/-- Pushing on the calendar matches appending to the map. -/
theorem calMatch_push {ivf : Nat → OInterval} {cal : String → List OInterval}
    {m : List (Nat × String)} (h : CalMatch ivf cal m) (bid : Nat) (room : String) :
    CalMatch ivf (calPush cal room (ivf bid)) (m ++ [(bid, room)]) := by
  intro r
  rw [calPush, calOf_snoc]
  by_cases hr : r = room
  · subst hr; rw [if_pos rfl, if_pos rfl, h r]
  · rw [if_neg hr, if_neg fun hh => hr hh.symm, List.append_nil, h r]

/-- Popping the calendar undoes the push. -/
theorem calPop_push (cal : String → List OInterval) (room : String) (iv : OInterval) :
    calPop (calPush cal room iv) room = cal := by
  funext r
  rw [calPop, calPush]
  by_cases hr : r = room
  · rw [if_pos hr, if_pos hr, List.dropLast_concat]
  · rw [if_neg hr, if_neg hr]

/-- What a successful `feasible` test means. -/
theorem feasible_spec {ctx : SearchCtx} {cal : String → List OInterval} {b : Booking}
    {rm : Room} (h : feasible ctx cal b rm = true) :
    (ctx.ivf b.idx).1.isSome = true ∧ (ctx.ivf b.idx).2.isSome = true ∧
      ∀ e ∈ cal rm.room, ovO (ctx.ivf b.idx) e = false := by
  rw [feasible] at h
  by_cases h1 : ((ctx.ivf b.idx).1.isNone || (ctx.ivf b.idx).2.isNone) = true
  · rw [if_pos h1] at h
    exact absurd h (by simp)
  · rw [if_neg h1] at h
    rw [Bool.or_eq_true, not_or] at h1
    refine ⟨?_, ?_, ?_⟩
    · cases hx : (ctx.ivf b.idx).1
      · exact absurd (by rw [hx]; rfl) h1.1
      · rfl
    · cases hx : (ctx.ivf b.idx).2
      · exact absurd (by rw [hx]; rfl) h1.2
      · rfl
    · intro e he
      have := List.all_eq_true.mp h e he
      rw [Bool.not_eq_true'] at this
      exact this

/-- Appending a feasible assignment keeps the map sound. -/
theorem goodMap_push {bks : List Booking} {ivf : Nat → OInterval}
    {m : List (Nat × String)} (hg : GoodMap bks ivf m)
    {cal : String → List OInterval} (hc : CalMatch ivf cal m) {b : Booking}
    (hb : b ∈ bks) {rm : Room}
    (h1 : (ivf b.idx).1.isSome = true) (h2 : (ivf b.idx).2.isSome = true)
    (h3 : ∀ e ∈ cal rm.room, ovO (ivf b.idx) e = false) :
    GoodMap bks ivf (m ++ [(b.idx, rm.room)]) := by
  constructor
  · intro e he
    rcases List.mem_append.mp he with hmm | hnew
    · exact hg.1 e hmm
    · have : e = (b.idx, rm.room) := by simpa using hnew
      subst this
      exact ⟨⟨b, hb, rfl⟩, h1, h2⟩
  · rw [List.pairwise_append]
    refine ⟨hg.2, List.pairwise_singleton _ _, ?_⟩
    intro e1 he1 e2 he2
    have he2' : e2 = (b.idx, rm.room) := by simpa using he2
    subst he2'
    intro hroom
    have hmem : ivf e1.1 ∈ cal rm.room := by
      rw [hc rm.room, calOf]
      refine List.mem_map.mpr ⟨e1, List.mem_filter.mpr ⟨he1, ?_⟩, rfl⟩
      simp [hroom]
    have := h3 _ hmem
    rw [ovO_comm] at this
    exact this

/-- Every scored entry's room comes from the scored list. -/
theorem scoreRooms_rooms (ctx : SearchCtx) (famMem : String → List String) :
    ∀ (rooms : List Room) (gs : Groups) (b : Booking),
      ∀ e ∈ (scoreRooms ctx famMem gs b rooms).1, e.2 ∈ rooms := by
  intro rooms
  induction rooms with
  | nil => intro gs b e he; rw [scoreRooms] at he; exact absurd he (List.not_mem_nil _)
  | cons rm rest ih =>
      intro gs b e he
      rw [scoreRooms] at he
      rcases List.mem_cons.mp he with hhd | htl
      · rw [hhd]; exact List.mem_cons_self _ _
      · exact List.mem_cons_of_mem _ (ih _ b e htl)

/-- Everything the search invariant yields about one call's result, relative to
the call's input state: the best-so-far map is always sound; a returned map is
sound; on a failed (or short) result the calendars are restored; the node
counter never exceeds the budget and never decreases; a successful result
never flips the budget flag, which is set only at or above the node limit. -/
def SearchConcl (ctx : SearchCtx) (st : SState)
    (r : Option (List (Nat × String)) × SState) : Prop :=
  GoodMap ctx.bookings ctx.ivf r.2.best ∧
  (∀ mres, r.1 = some mres → GoodMap ctx.bookings ctx.ivf mres) ∧
  ((∀ mres, r.1 = some mres → mres.length ≠ ctx.bookings.length) → r.2.cal = st.cal) ∧
  (st.explored ≤ ctx.nodeLimit → r.2.explored ≤ ctx.nodeLimit) ∧
  (∀ mres, r.1 = some mres → r.2.timedOut = st.timedOut) ∧
  st.explored ≤ r.2.explored ∧
  (r.2.timedOut = st.timedOut ∨ ctx.nodeLimit ≤ r.2.explored)

/-- The room loop keeps the search invariant, given that the one-level-deeper
search does. -/
theorem tryRooms_spec (ctx : SearchCtx)
    (child : SState → List (Nat × String) → Int → Nat →
      Option (List (Nat × String)) × SState)
    (hchild : ∀ st m pen depth, GoodMap ctx.bookings ctx.ivf m →
      CalMatch ctx.ivf st.cal m → GoodMap ctx.bookings ctx.ivf st.best →
      SearchConcl ctx st (child st m pen depth))
    (b : Booking) (hb : b ∈ ctx.bookings) :
    ∀ (rooms : List Room) (st : SState) (curMap : List (Nat × String)) (curPen : Int)
      (depth : Nat),
      GoodMap ctx.bookings ctx.ivf curMap →
      CalMatch ctx.ivf st.cal curMap →
      GoodMap ctx.bookings ctx.ivf st.best →
      (∀ rm ∈ rooms, feasible ctx st.cal b rm = true) →
      SearchConcl ctx st (tryRooms ctx child st b curMap curPen depth rooms) := by
  intro rooms
  induction rooms with
  | nil =>
      intro st curMap curPen depth hm hc hbest hfeas
      rw [tryRooms]
      exact ⟨hbest, fun mres h => absurd h (by simp), fun _ => rfl, fun h => h,
        fun mres h => absurd h (by simp), Nat.le_refl _, Or.inl rfl⟩
  | cons rm rest ih =>
      intro st curMap curPen depth hm hc hbest hfeas
      rw [tryRooms]
      dsimp only
      obtain ⟨hiv1, hiv2, hnoov⟩ := feasible_spec (hfeas rm (List.mem_cons_self _ _))
      have hmC : GoodMap ctx.bookings ctx.ivf (curMap ++ [(b.idx, rm.room)]) :=
        goodMap_push hm hc hb hiv1 hiv2 hnoov
      have hcC : CalMatch ctx.ivf (calPush st.cal rm.room (ctx.ivf b.idx))
          (curMap ++ [(b.idx, rm.room)]) := calMatch_push hc _ _
      set sp := tentState ctx st b rm with hspdef
      set r := child sp.1 (curMap ++ [(b.idx, rm.room)]) (curPen + sp.2) (depth + 1)
        with hrdef
      obtain ⟨h1, h2, h3, h4, h5, h6, h7⟩ :=
        hchild sp.1 (curMap ++ [(b.idx, rm.room)]) (curPen + sp.2) (depth + 1) hmC hcC hbest
      rw [← hrdef] at h1 h2 h3 h4 h5 h6 h7
      split
      · next hsucc =>
          refine ⟨h1, h2, ?_, h4, h5, h6, h7⟩
          intro hshort
          exfalso
          generalize hr1 : r.1 = r1 at hsucc hshort
          cases r1 with
          | none => exact absurd hsucc (by simp)
          | some res =>
              have : res.length = ctx.bookings.length := by simpa using hsucc
              exact hshort res rfl this
      · next hfail =>
          have hshort : ∀ mres, r.1 = some mres → mres.length ≠ ctx.bookings.length := by
            intro mres hres heq
            apply hfail
            rw [hres]
            simp [heq]
          have hcalr := h3 hshort
          have hstUcal : (undoState r.2 b rm).cal = st.cal := by
            show calPop r.2.cal rm.room = st.cal
            rw [hcalr]
            show calPop (calPush st.cal rm.room (ctx.ivf b.idx)) rm.room = st.cal
            exact calPop_push st.cal rm.room (ctx.ivf b.idx)
          split
          · next htrip =>
              refine ⟨h1, fun mres h => absurd h (by simp), fun _ => hstUcal,
                h4, fun mres h => absurd h (by simp), h6, Or.inr htrip⟩
          · next hok =>
              have hTO : r.2.timedOut = st.timedOut := by
                rcases h7 with h | h
                · exact h
                · exact absurd h hok
              obtain ⟨g1, g2, g3, g4, g5, g6, g7⟩ :=
                ih (undoState r.2 b rm) curMap curPen depth hm
                  (by
                    intro room
                    rw [hstUcal]
                    exact hc room)
                  h1
                  (by
                    intro rm' hrm'
                    rw [hstUcal]
                    exact hfeas rm' (List.mem_cons_of_mem _ hrm'))
              refine ⟨g1, g2, ?_, ?_, ?_, ?_, ?_⟩
              · intro hsh
                rw [g3 hsh]
                exact hstUcal
              · intro hle
                exact g4 (h4 hle)
              · intro mres hres
                rw [g5 mres hres]
                exact hTO
              · exact Nat.le_trans h6 g6
              · rcases g7 with h | h
                · exact Or.inl (h.trans hTO)
                · exact Or.inr h

/-- What membership in the candidate list of `backtrack` guarantees: the entry's
booking is one of the solve's bookings, and every room offered for it passed
`feasible` against the current calendars. -/
theorem genCands_entry {ctx : SearchCtx} {cal : String → List OInterval}
    {curMap : List (Nat × String)} {c : Nat × Nat × Booking × List Room}
    (hdo : ∀ pb ∈ ctx.depthOrder, pb.2 ∈ ctx.bookings)
    (hc : c ∈ genCands ctx cal curMap) :
    c.2.2.1 ∈ ctx.bookings ∧ ∀ rm ∈ c.2.2.2, feasible ctx cal c.2.2.1 rm = true := by
  obtain ⟨pb, hpb, hpbeq⟩ := List.mem_filterMap.mp hc
  by_cases hhas : mapHas curMap pb.2.idx = true
  · rw [if_pos hhas] at hpbeq
    cases hpbeq
  · rw [if_neg hhas] at hpbeq
    dsimp only at hpbeq
    rw [Option.some.injEq] at hpbeq
    subst hpbeq
    refine ⟨hdo pb hpb, ?_⟩
    intro rm hrm
    dsimp only at hrm ⊢
    cases hf : pb.2.forced_room with
    | some fr =>
        rw [hf] at hrm
        exact (List.mem_filter.mp (List.mem_of_mem_filter hrm)).2
    | none =>
        rw [hf] at hrm
        exact (List.mem_filter.mp hrm).2

/-- The MRV backtracking search keeps the search invariant. -/
theorem backtrack_spec (ctx : SearchCtx)
    (hdo : ∀ pb ∈ ctx.depthOrder, pb.2 ∈ ctx.bookings) :
    ∀ (fuel : Nat) (st : SState) (curMap : List (Nat × String)) (curPen : Int) (depth : Nat),
      GoodMap ctx.bookings ctx.ivf curMap →
      CalMatch ctx.ivf st.cal curMap →
      GoodMap ctx.bookings ctx.ivf st.best →
      SearchConcl ctx st (backtrack ctx fuel st curMap curPen depth) := by
  intro fuel
  induction fuel with
  | zero =>
      intro st curMap curPen depth hm hc hbest
      rw [backtrack]
      exact ⟨hbest, fun mres h => absurd h (by simp), fun _ => rfl, fun h => h,
        fun mres h => absurd h (by simp), Nat.le_refl _, Or.inl rfl⟩
  | succ fuel ih =>
      intro st curMap curPen depth hm hc hbest
      rw [backtrack]
      dsimp only
      split
      · next htrip =>
          exact ⟨hbest, fun mres h => absurd h (by simp), fun _ => rfl, fun h => h,
            fun mres h => absurd h (by simp), Nat.le_refl _, Or.inr htrip⟩
      · next hnotrip =>
          have hlt : st.explored < ctx.nodeLimit := Nat.lt_of_not_le hnotrip
          have hbest1 : GoodMap ctx.bookings ctx.ivf
              (if curMap.length > st.best.length
                  ∨ (curMap.length = st.best.length ∧ penLt curPen st.bestPen = true) then
                curMap else st.best) := by
            split
            · exact hm
            · exact hbest
          split
          · next hdepth =>
              exact ⟨hbest1, fun mres h => by cases h; exact hm, fun _ => rfl, fun h => h,
                fun mres h => rfl, Nat.le_refl _, Or.inl rfl⟩
          · next hdepth =>
              split
              · next hcE =>
                  exact ⟨hbest1, fun mres h => by cases h; exact hm, fun _ => rfl,
                    fun _ => Nat.succ_le_of_lt hlt,
                    fun mres h => rfl, Nat.le_succ _, Or.inl rfl⟩
              · next hcE =>
                  split
                  · next hhead =>
                      exact ⟨hbest1, fun mres h => by cases h; exact hm, fun _ => rfl,
                        fun _ => Nat.succ_le_of_lt hlt,
                        fun mres h => rfl, Nat.le_succ _, Or.inl rfl⟩
                  · next c hhead =>
                      have hcmem : c ∈ genCands ctx st.cal curMap := by
                        have h1 : c ∈ stableSort mrvLe (genCands ctx st.cal curMap) := by
                          cases hsl : stableSort mrvLe (genCands ctx st.cal curMap) with
                          | nil => rw [hsl] at hhead; cases hhead
                          | cons x t =>
                              rw [hsl] at hhead
                              rw [List.head?_cons, Option.some.injEq] at hhead
                              rw [← hhead]
                              exact List.mem_cons_self _ _
                        exact (mem_stableSort mrvLe).mp h1
                      obtain ⟨hbmem, hfeasC⟩ := genCands_entry hdo hcmem
                      have hfeasO : ∀ rm ∈ (stableSort (fun x y => decide (x.1 ≤ y.1))
                          (scoreRooms ctx st.famMem st.groups c.2.2.1 c.2.2.2).1).map
                            (fun e => e.2),
                          feasible ctx st.cal c.2.2.1 rm = true := by
                        intro rm hrm
                        obtain ⟨e, he, hee⟩ := List.mem_map.mp hrm
                        have hmemr := scoreRooms_rooms ctx st.famMem c.2.2.2 st.groups
                          c.2.2.1 e ((mem_stableSort _).mp he)
                        rw [← hee]
                        exact hfeasC _ hmemr
                      have hsp :=
                        tryRooms_spec ctx (backtrack ctx fuel)
                          (fun st' m' pen' depth' hm' hc' hb' =>
                            ih st' m' pen' depth' hm' hc' hb')
                          c.2.2.1 hbmem
                          ((stableSort (fun x y => decide (x.1 ≤ y.1))
                            (scoreRooms ctx st.famMem st.groups c.2.2.1 c.2.2.2).1).map
                              (fun e => e.2))
                          { st with
                            best := if curMap.length > st.best.length
                                ∨ (curMap.length = st.best.length
                                  ∧ penLt curPen st.bestPen = true) then
                              curMap else st.best,
                            bestPen := if curMap.length > st.best.length
                                ∨ (curMap.length = st.best.length
                                  ∧ penLt curPen st.bestPen = true) then
                              some curPen else st.bestPen,
                            explored := st.explored + 1,
                            groups := (scoreRooms ctx st.famMem st.groups
                              c.2.2.1 c.2.2.2).2 }
                          curMap curPen depth hm hc hbest1 hfeasO
                      exact ⟨hsp.1, hsp.2.1, fun h => hsp.2.2.1 h,
                        fun _ => hsp.2.2.2.1 (Nat.succ_le_of_lt hlt),
                        fun mres h => hsp.2.2.2.2.1 mres h,
                        Nat.le_trans (Nat.le_succ _) hsp.2.2.2.2.2.1,
                        hsp.2.2.2.2.2.2⟩

/-- The search invariant instantiated at the entry point: `_search_core` starts
from the empty map, empty calendars, zero explored nodes and an unset budget
flag, so `backtrack_spec` applies directly. -/
theorem searchCore_concl (bookings : List Booking) (rooms : List Room)
    (fg : Groups) (ws wf : Bool) (nl : Nat) (us : Bool) :
    SearchConcl (mkCtx bookings rooms ws wf nl us)
      (initState (filterGroups fg bookings))
      (_search_core bookings rooms fg ws wf nl us) := by
  have hdo : ∀ pb ∈ (mkCtx bookings rooms ws wf nl us).depthOrder,
      pb.2 ∈ (mkCtx bookings rooms ws wf nl us).bookings := by
    intro pb hpb
    have henum : pb ∈ bookings.enum := by
      have hpb' : pb ∈ mkDepthOrder bookings := hpb
      simp only [mkDepthOrder] at hpb'
      rcases List.mem_append.mp hpb' with h | h
      · exact List.mem_of_mem_filter h
      · exact List.mem_of_mem_filter h
    have hmem := List.mem_map_of_mem Prod.snd henum
    rw [List.enum_map_snd] at hmem
    exact hmem
  exact backtrack_spec (mkCtx bookings rooms ws wf nl us) hdo
    (bookings.length + 1) (initState (filterGroups fg bookings)) [] 0 0
    (goodMap_nil _ _) (fun _ => rfl) (goodMap_nil _ _)

/-- C10: the per-type backtracking search always terminates (in this embedding
it is a total function), its node counter — checked before every expansion —
never exceeds `node_limit`, and when the budget flag comes back set the search
did not complete: it returns the best partial assignment recorded so far
(itself a sound, non-overlapping map) with `complete = false` instead of
failing.  The wall-clock half of the budget is outside the embedding. -/
theorem search_bounded_and_returns_best (bookings : List Booking)
    (rooms : List Room) (fg : Groups) (ws wf : Bool) (nl : Nat) (us : Bool) :
    (_search_assignments bookings rooms fg ws wf nl us).2.2.1 ≤ nl ∧
    ((_search_assignments bookings rooms fg ws wf nl us).2.2.2 = true →
      (_search_assignments bookings rooms fg ws wf nl us).1 =
        (_search_core bookings rooms fg ws wf nl us).2.best ∧
      GoodMap bookings (mkIvf bookings)
        (_search_assignments bookings rooms fg ws wf nl us).1 ∧
      (_search_assignments bookings rooms fg ws wf nl us).2.1 = false) := by
  obtain ⟨hbestG, hsome, hcal, hbud, hTO, hmono, hflag⟩ :=
    searchCore_concl bookings rooms fg ws wf nl us
  constructor
  · exact hbud (Nat.zero_le nl)
  · intro hto
    have hto' : (_search_core bookings rooms fg ws wf nl us).2.timedOut = true := hto
    cases hr1 : (_search_core bookings rooms fg ws wf nl us).1 with
    | some m =>
        have hcontra := hTO m hr1
        rw [hto'] at hcontra
        simp [initState] at hcontra
    | none =>
        have hmap : (_search_assignments bookings rooms fg ws wf nl us).1 =
            (_search_core bookings rooms fg ws wf nl us).2.best := by
          simp only [_search_assignments, hr1]
        have hcomp : (_search_assignments bookings rooms fg ws wf nl us).2.1 = false := by
          simp only [_search_assignments, hr1]
        exact ⟨hmap, hmap ▸ hbestG, hcomp⟩

/-- On fully parsed intervals the option-level overlap test is exactly
`utils._overlaps`. -/
theorem ovO_some_eq (a0 a1 b0 b1 : Nat) :
    ovO (some a0, some a1) (some b0, some b1) = _overlaps a0 a1 b0 b1 := by
  rw [ovO, _overlaps]
  show (decide (a0 < b1) && decide (b0 < a1)) = _
  by_cases h1 : a0 < b1 <;> by_cases h2 : b0 < a1 <;>
    simp [h1, h2, Nat.not_lt.mp, *]

/-- `getLast?` of a nonempty constant list. -/
theorem getLast?_all_eq {α : Type} {b : α} :
    ∀ {l : List α}, l ≠ [] → (∀ x ∈ l, x = b) → l.getLast? = some b
  | [], h, _ => absurd rfl h
  | [x], _, hall => by
      rw [List.getLast?_singleton]
      rw [hall x (List.mem_singleton_self x)]
  | x :: y :: t, _, hall => by
      rw [List.getLast?_cons_cons]
      exact getLast?_all_eq (by simp) fun z hz => hall z (List.mem_cons_of_mem _ hz)

/-- When booking ids are unique, the interval function returns exactly the
booking's own parsed dates. -/
theorem mkIvf_eq {bks : List Booking}
    (hinj : ∀ b1 ∈ bks, ∀ b2 ∈ bks, b1.idx = b2.idx → b1 = b2)
    {b : Booking} (hb : b ∈ bks) :
    mkIvf bks b.idx = (pandas_to_datetime b.check_in, pandas_to_datetime b.check_out) := by
  have hmem : b ∈ bks.filter fun x => x.idx == b.idx :=
    List.mem_filter.mpr ⟨hb, by simp⟩
  have hne : bks.filter (fun x => x.idx == b.idx) ≠ [] := by
    intro h
    rw [h] at hmem
    exact absurd hmem (List.not_mem_nil _)
  have hall : ∀ x ∈ bks.filter fun y => y.idx == b.idx, x = b := by
    intro x hx
    have h1 := List.mem_filter.mp hx
    exact hinj x h1.1 b hb (by simpa using h1.2)
  simp only [mkIvf]
  rw [getLast?_all_eq hne hall]

/-- Booking ids generated by `enumerate` identify the booking uniquely. -/
theorem mkBookings_idx_inj (families : List FamRow) :
    ∀ b1 ∈ mkBookings families, ∀ b2 ∈ mkBookings families, b1.idx = b2.idx → b1 = b2 := by
  intro b1 h1 b2 h2 heq
  simp only [mkBookings] at h1 h2
  obtain ⟨p1, hp1, he1⟩ := List.mem_map.mp h1
  obtain ⟨p2, hp2, he2⟩ := List.mem_map.mp h2
  have hg1 := List.mem_enum_iff_getElem?.mp hp1
  have hg2 := List.mem_enum_iff_getElem?.mp hp2
  have hfst : p1.1 = p2.1 := by
    have e1 : b1.idx = p1.1 := by rw [← he1]
    have e2 : b2.idx = p2.1 := by rw [← he2]
    rw [← e1, ← e2, heq]
  rw [hfst] at hg1
  rw [hg1] at hg2
  have hsnd : p1.2 = p2.2 := by
    injection hg2
  have hp : p1 = p2 := Prod.ext hfst hsnd
  rw [← he1, ← he2, hp]

/-- The generated booking ids are `0, 1, …` in input order. -/
theorem mkBookings_map_idx (families : List FamRow) :
    (mkBookings families).map (fun b => b.idx) = List.range families.length := by
  rw [mkBookings, List.map_map]
  exact List.enum_map_fst families

/-- Distinct bookings carry distinct ids. -/
theorem mkBookings_pairwise_ne (families : List FamRow) :
    (mkBookings families).Pairwise fun b1 b2 => b1.idx ≠ b2.idx := by
  have h1 : ((mkBookings families).map fun b => b.idx).Nodup := by
    rw [mkBookings_map_idx]
    exact List.nodup_range _
  exact List.pairwise_map.mp h1

/-- A map entry of a sound map identifies a real booking with parsed dates. -/
theorem goodMap_entry {bks : List Booking} {ivf : Nat → OInterval}
    {m : List (Nat × String)} (hg : GoodMap bks ivf m) {i : Nat} {room : String}
    (hmem : (i, room) ∈ m) :
    (∃ b ∈ bks, b.idx = i) ∧ (ivf i).1.isSome = true ∧ (ivf i).2.isSome = true :=
  hg.1 (i, room) hmem

/-- Two same-room entries of a sound map never overlap, in either order. -/
theorem goodMap_no_overlap {bks : List Booking} {ivf : Nat → OInterval}
    {m : List (Nat × String)} (hg : GoodMap bks ivf m) {i j : Nat} {room : String}
    (hi : (i, room) ∈ m) (hj : (j, room) ∈ m) (hne : i ≠ j) :
    ovO (ivf i) (ivf j) = false := by
  have hsym : Symmetric fun (e1 e2 : Nat × String) =>
      e1.2 = e2.2 → ovO (ivf e1.1) (ivf e2.1) = false := by
    intro a b hab hba
    rw [ovO_comm]
    exact hab hba.symm
  have hpair := hg.2.forall hsym hi hj (fun h => hne (congrArg Prod.fst h))
  exact hpair rfl

/-- Whatever `_search_assignments` hands back — the full map, the recorded
best, or the nonempty branch of the empty-result check — is a sound map. -/
theorem searchResult_good (bookings : List Booking) (rooms : List Room)
    (fg : Groups) (ws wf : Bool) (nl : Nat) (us : Bool) :
    GoodMap bookings (mkIvf bookings)
      (_search_assignments bookings rooms fg ws wf nl us).1 := by
  obtain ⟨hbestG, hsome, -, -, -, -, -⟩ := searchCore_concl bookings rooms fg ws wf nl us
  cases hr1 : (_search_core bookings rooms fg ws wf nl us).1 with
  | none =>
      have hmap : (_search_assignments bookings rooms fg ws wf nl us).1 =
          (_search_core bookings rooms fg ws wf nl us).2.best := by
        simp only [_search_assignments, hr1]
      rw [hmap]
      exact hbestG
  | some m =>
      have hmap : (_search_assignments bookings rooms fg ws wf nl us).1 =
          (if m.isEmpty then (_search_core bookings rooms fg ws wf nl us).2.best
            else m) := by
        simp only [_search_assignments, hr1]
      rw [hmap]
      split
      · exact hbestG
      · exact hsome m hr1

/-- Every booked type appears in the per-type list. -/
theorem mem_rtList {bookings : List Booking} {b : Booking} (hb : b ∈ bookings) :
    b.room_type ∈ rtList bookings := by
  rw [rtList, mem_stableSort, List.mem_dedup]
  exact List.mem_map_of_mem _ hb

/-- Membership in the per-type list comes from some booking of that type. -/
theorem rtList_mem_exists {bookings : List Booking} {rt : String}
    (h : rt ∈ rtList bookings) : ∃ b ∈ bookings, b.room_type = rt := by
  rw [rtList, mem_stableSort, List.mem_dedup] at h
  obtain ⟨b, hb, hbe⟩ := List.mem_map.mp h
  exact ⟨b, hb, hbe⟩

/-- A successful `for rt` iteration never touches the global id-to-room
function: the skip and no-rooms branches keep it, and the ladder branch
cannot succeed. -/
theorem assignStepE_ok_fn {pTB : String → List Booking} {pTR : String → List Room}
    {nPer : Nat} {us : Bool} {acc res : (Nat → Option String) × List LogEvent}
    {rt : String} (h : assignStepE pTB pTR nPer us acc rt = .ok res) :
    res.1 = acc.1 := by
  rw [assignStepE] at h
  split at h
  · cases h
    rfl
  · split at h
    · cases h
      rfl
    · rw [ladder_first_stage_raises] at h
      simp at h

/-- The only exception a `for rt` iteration can raise is the ladder's
TypeError. -/
theorem assignStepE_error {pTB : String → List Booking} {pTR : String → List Room}
    {nPer : Nat} {us : Bool} {acc : (Nat → Option String) × List LogEvent}
    {rt : String} {e : String} (h : assignStepE pTB pTR nPer us acc rt = .error e) :
    e = missingKwOnlyMsg "use_soft" := by
  rw [assignStepE] at h
  split at h
  · cases h
  · split at h
    · cases h
    · rw [ladder_first_stage_raises] at h
      have h2 : Except.error (α := (Nat → Option String) × List LogEvent)
          (missingKwOnlyMsg "use_soft") = .error e := h
      injection h2 with h3
      exact h3.symm

/-- Folding any string of successful iterations leaves the global id-to-room
function exactly as it started. -/
theorem foldE_ok_fn (pTB : String → List Booking) (pTR : String → List Room)
    (nPer : Nat) (us : Bool) :
    ∀ (rts : List String) (acc res : (Nat → Option String) × List LogEvent),
      rts.foldlM (assignStepE pTB pTR nPer us) acc = .ok res → res.1 = acc.1 := by
  intro rts
  induction rts with
  | nil =>
      intro acc res h
      cases h
      rfl
  | cons rt rest ih =>
      intro acc res h
      rw [List.foldlM_cons] at h
      cases hstep : assignStepE pTB pTR nPer us acc rt with
      | error e =>
          rw [hstep] at h
          cases h
      | ok acc2 =>
          rw [hstep] at h
          have h2 : rest.foldlM (assignStepE pTB pTR nPer us) acc2 = .ok res := h
          rw [ih acc2 res h2]
          exact assignStepE_ok_fn hstep

/-- When every listed type lacks bookings or lacks rooms, the fold returns
normally: the global function is untouched, earlier log entries survive, and
every bookings-but-no-rooms type gets its diagnostic. -/
theorem foldE_skip_ok (pTB : String → List Booking) (pTR : String → List Room)
    (nPer : Nat) (us : Bool) :
    ∀ (rts : List String) (acc : (Nat → Option String) × List LogEvent),
      (∀ rt ∈ rts, (pTB rt).isEmpty = true ∨ (pTR rt).isEmpty = true) →
      ∃ res, rts.foldlM (assignStepE pTB pTR nPer us) acc = .ok res ∧
        res.1 = acc.1 ∧ (∀ e ∈ acc.2, e ∈ res.2) ∧
        (∀ rt ∈ rts, (pTB rt).isEmpty = false → LogEvent.noRooms rt ∈ res.2) := by
  intro rts
  induction rts with
  | nil =>
      intro acc _
      exact ⟨acc, rfl, rfl, fun e he => he, fun rt h => absurd h (List.not_mem_nil _)⟩
  | cons rt2 rest ih =>
      intro acc hskip
      by_cases hbk : (pTB rt2).isEmpty = true
      · have hstep : assignStepE pTB pTR nPer us acc rt2 = .ok acc := by
          simp [assignStepE, hbk]
        obtain ⟨res, hres, hfn, hmono, hlog⟩ := ih acc
          (fun rt h => hskip rt (List.mem_cons_of_mem _ h))
        refine ⟨res, ?_, hfn, hmono, ?_⟩
        · rw [List.foldlM_cons, hstep]
          exact hres
        · intro rt hmem hne
          rcases List.mem_cons.mp hmem with heq | htail
          · subst heq
            rw [hbk] at hne
            cases hne
          · exact hlog rt htail hne
      · have hrms : (pTR rt2).isEmpty = true := by
          rcases hskip rt2 (List.mem_cons_self _ _) with h | h
          · exact absurd h hbk
          · exact h
        have hstep : assignStepE pTB pTR nPer us acc rt2 =
            .ok (acc.1, acc.2 ++ [LogEvent.noRooms rt2]) := by
          simp [assignStepE, hbk, hrms]
        obtain ⟨res, hres, hfn, hmono, hlog⟩ :=
          ih (acc.1, acc.2 ++ [LogEvent.noRooms rt2])
            (fun rt h => hskip rt (List.mem_cons_of_mem _ h))
        refine ⟨res, ?_, hfn, ?_, ?_⟩
        · rw [List.foldlM_cons, hstep]
          exact hres
        · intro e he
          exact hmono e (List.mem_append_left _ he)
        · intro rt hmem hne
          rcases List.mem_cons.mp hmem with heq | htail
          · subst heq
            exact hmono _ (List.mem_append_right _ (List.mem_singleton_self _))
          · exact hlog rt htail hne

/-- Whenever some listed type has both bookings and rooms, the fold raises
the ladder's TypeError. -/
theorem foldE_error (pTB : String → List Booking) (pTR : String → List Room)
    (nPer : Nat) (us : Bool) :
    ∀ (rts : List String) (acc : (Nat → Option String) × List LogEvent)
      (rt : String), rt ∈ rts →
      (pTB rt).isEmpty = false → (pTR rt).isEmpty = false →
      rts.foldlM (assignStepE pTB pTR nPer us) acc =
        .error (missingKwOnlyMsg "use_soft") := by
  intro rts
  induction rts with
  | nil =>
      intro acc rt h
      exact absurd h (List.not_mem_nil _)
  | cons rt2 rest ih =>
      intro acc rt hmem hbk hrms
      rw [List.foldlM_cons]
      rcases List.mem_cons.mp hmem with heq | htail
      · subst heq
        have hstep : assignStepE pTB pTR nPer us acc rt =
            .error (missingKwOnlyMsg "use_soft") := by
          simp [assignStepE, hbk, hrms, ladder_first_stage_raises]
        rw [hstep]
        rfl
      · cases hstep : assignStepE pTB pTR nPer us acc rt2 with
        | error e =>
            have h3 := assignStepE_error hstep
            subst h3
            rfl
        | ok acc2 =>
            show rest.foldlM (assignStepE pTB pTR nPer us) acc2 = _
            exact ih acc2 rt htail hbk hrms

/-- With an untouched (empty) global function every output row is unassigned,
so the assigned split is empty. -/
theorem rowsOut_none_assigned_empty (families : List FamRow) :
    (rowsOutOf families (fun _ => none)).filter (fun r => !(r.room == "")) = [] := by
  rw [rowsOutOf]
  refine List.filter_eq_nil_iff.mpr ?_
  intro r hr
  obtain ⟨b, hb, hbe⟩ := List.mem_map.mp hr
  rw [← hbe]
  simp

/-- C1 (code bug): the two halves of the claim, against the code as written.
The committed-search half is true: any two same-room entries of any map
`_search_assignments` returns carry parsed, non-overlapping half-open
intervals — `feasible` admits only rooms with no conflict against everything
already committed in the same solve, so the recursion never emits an
overlapping placement.  The end-to-end half is unwitnessable: the exported
`assign_rooms` raises `TypeError` before any placement can be committed (the
ladder call omits the required keyword-only `use_soft`), so whenever it does
return at all its assigned table is empty. -/
theorem search_maps_never_overlap :
    (∀ (families : List FamRow) (rooms : List RoomRow) (nl : Nat) (spt us : Bool)
      (A U : List OutRow) (log : List LogEvent),
      assign_roomsE families rooms nl spt us = .ok (A, U, log) → A = []) ∧
    (∀ (bk : List Booking) (rms : List Room) (fg : Groups) (ws wf : Bool)
      (nl : Nat) (us : Bool) (i j : Nat) (room : String),
      (i, room) ∈ (_search_assignments bk rms fg ws wf nl us).1 →
      (j, room) ∈ (_search_assignments bk rms fg ws wf nl us).1 →
      i ≠ j →
      (mkIvf bk i).1.isSome = true ∧ (mkIvf bk i).2.isSome = true ∧
      ∀ s1 e1 s2 e2,
        mkIvf bk i = (some s1, some e1) →
        mkIvf bk j = (some s2, some e2) →
        _overlaps s1 e1 s2 e2 = false) := by
  constructor
  · intro families rooms nl spt us A U log h
    unfold assign_roomsE at h
    cases hfold : assignFoldE families rooms nl spt us with
    | error e =>
        rw [hfold] at h
        cases h
    | ok fold =>
        rw [hfold] at h
        dsimp only at h
        have hfold2 : (rtlOf families spt).foldlM
            (assignStepE (pTBOf families spt) (pTROf rooms spt)
              (nPerOf families nl spt) us) ((fun _ => none), []) = .ok fold := by
          rw [assignFoldE] at hfold
          exact hfold
        have hfn := foldE_ok_fn _ _ _ _ _ _ _ hfold2
        injection h with h2
        have hA : A = (rowsOutOf families fold.1).filter fun r => !(r.room == "") :=
          (congrArg (fun t => t.1) h2).symm
        rw [hA, hfn]
        exact rowsOut_none_assigned_empty families
  · intro bk rms fg ws wf nl us i j room hi hj hne
    have hg := searchResult_good bk rms fg ws wf nl us
    obtain ⟨-, hs1, hs2⟩ := goodMap_entry hg hi
    have hov := goodMap_no_overlap hg hi hj hne
    refine ⟨hs1, hs2, ?_⟩
    intro s1 e1 s2 e2 h1 h2
    rw [h1, h2] at hov
    rw [ovO_some_eq] at hov
    exact hov

/-- C9 (code bug): a roomless booked type is itself handled as expected
infeasibility, but only when no booked type has rooms does the solve actually
return — any booked type with rooms raises the `TypeError` first and no
tables materialize.  In the returning case every booking lands in the
unassigned table (the assigned table is empty) and the diagnostic event
behind `[rt] No rooms available for this type.` is logged for the roomless
type. -/
theorem roomless_types_all_unassigned (families : List FamRow) (rooms : List RoomRow)
    (nl : Nat) (us : Bool) (b : Booking) (hb : b ∈ mkBookings families)
    (hall : ∀ b2 ∈ mkBookings families,
      (mkRooms rooms).filter (fun rm => rm.room_type == b2.room_type) = []) :
    ∃ A U log, assign_roomsE families rooms nl true us = .ok (A, U, log) ∧
      A = [] ∧ (∃ r ∈ U, r.idx = b.idx ∧ r.room = "") ∧
      LogEvent.noRooms b.room_type ∈ log := by
  have hskip : ∀ rt ∈ rtlOf families true,
      ((pTBOf families true rt).isEmpty = true)
      ∨ ((pTROf rooms true rt).isEmpty = true) := by
    intro rt hrt
    obtain ⟨b2, hb2, hbe⟩ := rtList_mem_exists hrt
    right
    have h1 : pTROf rooms true rt =
        (mkRooms rooms).filter fun rm => rm.room_type == rt := rfl
    rw [h1, ← hbe, hall b2 hb2]
    rfl
  obtain ⟨res, hres, hfn, hmono, hlog⟩ := foldE_skip_ok (pTBOf families true)
    (pTROf rooms true) (nPerOf families nl true) us (rtlOf families true)
    ((fun _ => none), []) hskip
  have hfoldE : assignFoldE families rooms nl true us = .ok res := by
    rw [assignFoldE]
    exact hres
  refine ⟨(rowsOutOf families res.1).filter fun r => !(r.room == ""),
    (rowsOutOf families res.1).filter fun r => r.room == "", res.2,
    ?_, ?_, ?_, ?_⟩
  · unfold assign_roomsE
    rw [hfoldE]
  · rw [hfn]
    exact rowsOut_none_assigned_empty families
  · rw [hfn]
    refine ⟨{ idx := b.idx, id := b.idx, family := b.family,
              room_type := b.room_type, check_in := b.check_in,
              check_out := b.check_out, forced_room := b.forced_room.getD "",
              room := "" }, ?_, rfl, rfl⟩
    refine List.mem_filter.mpr ⟨?_, by simp⟩
    rw [rowsOutOf]
    exact List.mem_map.mpr ⟨b, hb, rfl⟩
  · have hbmem : b ∈ pTBOf families true b.room_type := by
      show b ∈ (mkBookings families).filter fun x => x.room_type == b.room_type
      exact List.mem_filter.mpr ⟨hb, by simp⟩
    have hbkne : (pTBOf families true b.room_type).isEmpty = false := by
      cases hpp : pTBOf families true b.room_type with
      | nil =>
          rw [hpp] at hbmem
          exact absurd hbmem (List.not_mem_nil _)
      | cons x xs => rfl
    exact hlog b.room_type (mem_rtList hb) hbkne

/-- The C9 witness input: one booking of type T, while the only catalog room
has type U (no booked type has rooms, so the solve returns). -/
def c9_families : List FamRow :=
  [{ family := "A", room_type := "T", check_in := "01/01/2024",
     check_out := "03/01/2024", forced_room := "" }]

/-- The C9 witness catalog: no room of type T. -/
def c9_rooms : List RoomRow := [{ room := "R1", room_type := "U" }]

/-- The C9 witness booking as the solver builds it. -/
def c9_booking : Booking :=
  { idx := 0, family := "A", room_type := "T", check_in := "01/01/2024",
    check_out := "03/01/2024", forced_room := none }

/-- Witness for C9 at a concrete input: the hypotheses hold and the type-T
booking lands in the unassigned table with the diagnostic logged. -/
theorem roomless_types_all_unassigned_witness :
    c9_booking ∈ mkBookings c9_families ∧
    (∀ b2 ∈ mkBookings c9_families,
      (mkRooms c9_rooms).filter (fun rm => rm.room_type == b2.room_type) = []) ∧
    (∃ A U log, assign_roomsE c9_families c9_rooms 1000 true true = .ok (A, U, log) ∧
      A = [] ∧ (∃ r ∈ U, r.idx = c9_booking.idx ∧ r.room = "") ∧
      LogEvent.noRooms c9_booking.room_type ∈ log) :=
  ⟨by decide, by decide,
    roomless_types_all_unassigned c9_families c9_rooms 1000 true c9_booking
      (by decide) (by decide)⟩

/-- C3 (code bug): the solve does not return normally on well-typed input.
Every input with a booked type that has catalog rooms — in either solve
mode — raises `TypeError` (the ladder call omits the required keyword-only
`use_soft`) out of the very first ladder stage: a programming error on the
main path, not contractual misuse. -/
theorem solve_raises_missing_use_soft (families : List FamRow) (rooms : List RoomRow)
    (nl : Nat) (spt us : Bool) (b : Booking) (hb : b ∈ mkBookings families)
    (hrooms : (mkRooms rooms).filter (fun rm => rm.room_type == b.room_type) ≠ []) :
    assign_roomsE families rooms nl spt us =
      .error (missingKwOnlyMsg "use_soft") := by
  have hfold : assignFoldE families rooms nl spt us =
      .error (missingKwOnlyMsg "use_soft") := by
    rw [assignFoldE]
    cases spt with
    | true =>
        refine foldE_error _ _ _ _ _ _ b.room_type (mem_rtList hb) ?_ ?_
        · have hbmem : b ∈ pTBOf families true b.room_type := by
            show b ∈ (mkBookings families).filter fun x => x.room_type == b.room_type
            exact List.mem_filter.mpr ⟨hb, by simp⟩
          cases hpp : pTBOf families true b.room_type with
          | nil =>
              rw [hpp] at hbmem
              exact absurd hbmem (List.not_mem_nil _)
          | cons x xs => rfl
        · have h1 : pTROf rooms true b.room_type =
              (mkRooms rooms).filter fun rm => rm.room_type == b.room_type := rfl
          rw [h1]
          cases hpp : (mkRooms rooms).filter fun rm => rm.room_type == b.room_type with
          | nil => exact absurd hpp hrooms
          | cons x xs => rfl
    | false =>
        refine foldE_error _ _ _ _ _ _ "<all>" (List.mem_singleton_self _) ?_ ?_
        · have hbmem : b ∈ pTBOf families false "<all>" := hb
          cases hpp : pTBOf families false "<all>" with
          | nil =>
              rw [hpp] at hbmem
              exact absurd hbmem (List.not_mem_nil _)
          | cons x xs => rfl
        · have hne : mkRooms rooms ≠ [] := by
            intro h0
            apply hrooms
            rw [h0]
            rfl
          have h1 : pTROf rooms false "<all>" = mkRooms rooms := rfl
          rw [h1]
          cases hpp : mkRooms rooms with
          | nil => exact absurd hpp hne
          | cons x xs => rfl
  unfold assign_roomsE
  rw [hfold]

/-- The C3 witness input: two same-typed bookings whose stays overlap, with a
single catalog room of their type — well typed, yet the solve raises. -/
def c3_families : List FamRow :=
  [{ family := "A", room_type := "T", check_in := "01/01/2024",
     check_out := "03/01/2024", forced_room := "" },
   { family := "B", room_type := "T", check_in := "02/01/2024",
     check_out := "04/01/2024", forced_room := "" }]

/-- The C3 witness catalog: one room of type T. -/
def c3_rooms : List RoomRow := [{ room := "R1", room_type := "T" }]

/-- The first C3 witness booking as the solver builds it. -/
def c3_booking : Booking :=
  { idx := 0, family := "A", room_type := "T", check_in := "01/01/2024",
    check_out := "03/01/2024", forced_room := none }

/-- Witness for C3 at a concrete well-typed input: the hypotheses hold and
the solve raises the TypeError instead of returning tables. -/
theorem solve_raises_missing_use_soft_witness :
    c3_booking ∈ mkBookings c3_families ∧
    (mkRooms c3_rooms).filter (fun rm => rm.room_type == c3_booking.room_type) ≠ [] ∧
    assign_roomsE c3_families c3_rooms 1000 true true =
      .error (missingKwOnlyMsg "use_soft") :=
  ⟨by decide, by decide,
    solve_raises_missing_use_soft c3_families c3_rooms 1000 true true c3_booking
      (by decide) (by decide)⟩

end RoomAssign
